import Mathlib

/-!
# Verification of the go-migrate migration planner and executor

Shallow embedding of the core of the `MDobak/go-migrate` repository:

* `Migrator.plan` (planner: forward walk with snapshot shortcut and
  reset-on-applied policy, backward walk over applied versions),
* `Migrator.CurrentVersion` / `Migrator.LatestVersion`,
* `SQLDatabase.Migrate` (executor: per-action atomic unit, halt on the
  first failure),
* `FilesystemProvider.List` / `parseFileName` (file-based catalog adapter).

Go slices become `List`, Go `int` becomes `Int`, fallible calls
(`Up`, `Down`, `Snapshot`, statement execution) become `Except String`
values.  `sort.Slice` / `sort.Ints` become `List.insertionSort`, which
satisfies the same contract (a sorted permutation of the input); the
binary searches (`sort.SearchInts`, `sort.Search`) that the Go code runs
on the sorted lists are modelled by membership tests and `List.find?`,
which agree with them on sorted input.
-/

deriving instance DecidableEq for Except

namespace GoMigrate

/-- Migration direction, from the Go constants `Up = 1` and `Down = 2`. -/
inductive Direction where
  | up
  | down
deriving DecidableEq, Repr

/-- A planned unit of work, from the Go struct `Action`
(fields `Version`, `Migration`, `Direction`). -/
structure Action where
  version : Int
  migration : String
  direction : Direction
deriving DecidableEq, Repr

/-- A catalog entry, from the Go interface `Migration`.  The three text
payloads are the results of the fallible lazy loaders `Up`, `Down` and
`Snapshot`; caching in the Go file adapter makes repeated calls return
the same value, so each is modelled as one `Except` value.  An absent
snapshot is the empty string, as produced by `parseFileContent`. -/
structure Migration where
  version : Int
  up : Except String String
  down : Except String String
  snapshot : Except String String
deriving DecidableEq, Repr

/-- `sort.Slice(provList, ...)` on the version order. -/
def sortMigrations (l : List Migration) : List Migration :=
  List.insertionSort (fun a b => a.version ≤ b.version) l

/-- `sort.Ints(dbList)`. -/
def sortInts (l : List Int) : List Int :=
  List.insertionSort (fun a b : Int => a ≤ b) l

/-- The `latest` local of `Migrator.plan`: the last element of the sorted
applied list, `0` when the list is empty. -/
def planLatest (dbList : List Int) : Int :=
  ((sortInts dbList).getLast?).getD 0

/-- The `Migrate up` loop of `Migrator.plan`, walking the sorted catalog
with the accumulated `actions` slice.  `db` is the sorted applied list;
`sort.SearchInts` membership is modelled by `∈ db`. -/
def planUp (db : List Int) (target : Int) : List Migration → List Action → Except String (List Action)
  | [], acc => Except.ok acc
  | pm :: rest, acc =>
    if target < pm.version then Except.ok acc
    else if pm.version ∈ db then
      -- already applied: reset the accumulated actions (actions[0:0])
      planUp db target rest []
    else if db = [] then
      match pm.snapshot with
      | Except.error e => Except.error ("unable to load snapshot from migration: " ++ e)
      | Except.ok snap =>
        if 0 < snap.length then
          planUp db target rest [⟨pm.version, snap, Direction.up⟩]
        else
          match pm.up with
          | Except.error e => Except.error ("unable to load up migration: " ++ e)
          | Except.ok u => planUp db target rest (acc ++ [⟨pm.version, u, Direction.up⟩])
    else
      match pm.up with
      | Except.error e => Except.error ("unable to load up migration: " ++ e)
      | Except.ok u => planUp db target rest (acc ++ [⟨pm.version, u, Direction.up⟩])

/-- The `Migrate down` loop of `Migrator.plan`, walking the sorted applied
list from its highest version downwards (the argument is the reversed
sorted list); `sort.Search` on the sorted catalog is modelled by
`List.find?`. -/
def planDown (provSorted : List Migration) (target : Int) : List Int → List Action → Except String (List Action)
  | [], acc => Except.ok acc
  | v :: restRev, acc =>
    if v ≤ target then Except.ok acc
    else
      match provSorted.find? (fun m => decide (m.version = v)) with
      | some pm =>
        match pm.down with
        | Except.error e => Except.error ("unable to load down migration: " ++ e)
        | Except.ok d => planDown provSorted target restRev (acc ++ [⟨pm.version, d, Direction.down⟩])
      | none => planDown provSorted target restRev acc

/-- `Migrator.plan`: empty-catalog early return, sort both inputs, compute
`latest`, then run the forward loop (when `target > latest`) and the
backward loop (when `target < latest`); the two loops share the
`actions` slice but their guards are mutually exclusive. -/
def plan (provList : List Migration) (dbList : List Int) (target : Int) : Except String (List Action) :=
  if provList = [] then Except.ok []
  else
    match (if planLatest dbList < target
           then planUp (sortInts dbList) target (sortMigrations provList) []
           else Except.ok []) with
    | Except.error e => Except.error e
    | Except.ok acts =>
      if target < planLatest dbList
      then planDown (sortMigrations provList) target (sortInts dbList).reverse acts
      else Except.ok acts

/-- `Migrator.CurrentVersion` without the store call: the running-maximum
fold over the applied versions, starting from `0`. -/
def currentVersion (dbList : List Int) : Int :=
  dbList.foldl (fun latest v => if latest < v then v else latest) 0

/-- `Migrator.LatestVersion` without the provider call: the running-maximum
fold over the catalog versions, starting from `0`. -/
def latestVersion (provList : List Migration) : Int :=
  provList.foldl (fun latest m => if latest < m.version then m.version else latest) 0

/-- The state seen by `SQLDatabase`: an abstract backend state `σ` (the
schema acted on by migration statements) plus the rows of the
`migrations` bookkeeping table. -/
structure DBState (σ : Type) where
  backend : σ
  applied : List Int
deriving Repr

/-- `SQLDatabase.up`: one atomic unit — run the action's statement via the
abstract executor `exec`, then insert the bookkeeping row.  An error
leaves no effect (the Go `transaction` wrapper rolls back). -/
def runUp {σ : Type} (exec : σ → String → Except String σ) (st : DBState σ) (a : Action) :
    Except String (DBState σ) :=
  match exec st.backend a.migration with
  | Except.error e => Except.error e
  | Except.ok s2 => Except.ok ⟨s2, st.applied ++ [a.version]⟩

/-- `SQLDatabase.down`: statement plus `DELETE FROM migrations WHERE
version = $1`, as one atomic unit. -/
def runDown {σ : Type} (exec : σ → String → Except String σ) (st : DBState σ) (a : Action) :
    Except String (DBState σ) :=
  match exec st.backend a.migration with
  | Except.error e => Except.error e
  | Except.ok s2 => Except.ok ⟨s2, st.applied.filter (fun v => decide (v ≠ a.version))⟩

/-- The loop of `SQLDatabase.Migrate`: apply actions in order; on the
first failing atomic unit, keep the state from before that unit and
surface the error, attempting nothing further. -/
def sqlMigrate {σ : Type} (exec : σ → String → Except String σ) :
    DBState σ → List Action → DBState σ × Option String
  | st, [] => (st, none)
  | st, a :: rest =>
    match (match a.direction with
           | Direction.up => runUp exec st a
           | Direction.down => runDown exec st a) with
    | Except.error e => (st, some e)
    | Except.ok st2 => sqlMigrate exec st2 rest

/-- The applied-state update performed by a successfully executed plan:
each forward action's version is inserted into the `migrations` table,
each backward action's version is deleted from it (mirrors the
bookkeeping statements of `SQLDatabase.up` / `SQLDatabase.down`). -/
def applyPlan (dbList : List Int) (acts : List Action) : List Int :=
  acts.foldl
    (fun db a =>
      match a.direction with
      | Direction.up => db ++ [a.version]
      | Direction.down => db.filter (fun v => decide (v ≠ a.version)))
    dbList

/-- `strings.Split(s, sep)` for a single-character separator, over
character lists. -/
def splitOnChar (c : Char) : List Char → List (List Char)
  | [] => [[]]
  | x :: xs =>
    if x = c then [] :: splitOnChar c xs
    else
      match splitOnChar c xs with
      | [] => [[x]]
      | g :: gs => (x :: g) :: gs

/-- Value of a digit string (the digits branch of `strconv.Atoi`). -/
def digitsVal (l : List Char) : Nat :=
  l.foldl (fun acc c => acc * 10 + (c.toNat - '0'.toNat)) 0

/-- `strconv.Atoi`: optional sign followed by at least one digit; anything
else is an error (Go's overflow error on huge inputs is not modelled). -/
def atoiChars : List Char → Option Int
  | [] => none
  | c :: rest =>
    if c = '-' then
      if rest ≠ [] ∧ rest.all Char.isDigit then some (-(digitsVal rest : Int)) else none
    else if c = '+' then
      if rest ≠ [] ∧ rest.all Char.isDigit then some ((digitsVal rest : Int)) else none
    else
      if (c :: rest).all Char.isDigit then some ((digitsVal (c :: rest) : Int)) else none

/-- `parseFileName`, applied to the base name of the file: split on
dots, demand exactly a stem and the extension `sql`, and parse the part
of the stem before the first underscore (`strings.SplitN(stem, "_", 2)[0]`)
as an integer. -/
def parseFileName (name : List Char) : Option Int :=
  match splitOnChar '.' name with
  | [stem, ext] =>
    if ext = "sql".toList then
      atoiChars (stem.takeWhile (fun c => decide (c ≠ '_')))
    else none
  | _ => none

/-- A directory entry as seen by `FilesystemProvider.List`. -/
structure DirEntry where
  name : List Char
  isDir : Bool
deriving DecidableEq, Repr

/-- The loop of `FilesystemProvider.List`: skip directories, fail on the
first file name that does not parse, otherwise collect one migration
(file name and parsed version) per file. -/
def listMigrations : List DirEntry → Except String (List (List Char × Int))
  | [] => Except.ok []
  | e :: rest =>
    if e.isDir then listMigrations rest
    else
      match parseFileName e.name with
      | none => Except.error "invalid file name"
      | some v =>
        match listMigrations rest with
        | Except.error err => Except.error err
        | Except.ok ms => Except.ok ((e.name, v) :: ms)

/-- The domain of `strconv.Atoi`, stated from the spec side: an optional
sign followed by at least one digit, with the signed value `v`. -/
def intLiteral (l : List Char) (v : Int) : Prop :=
  (l.all Char.isDigit = true ∧ l ≠ [] ∧ v = (digitsVal l : Int))
  ∨ (∃ ds, l = '+' :: ds ∧ ds.all Char.isDigit = true ∧ ds ≠ [] ∧
      v = (digitsVal ds : Int))
  ∨ (∃ ds, l = '-' :: ds ∧ ds.all Char.isDigit = true ∧ ds ≠ [] ∧
      v = -(digitsVal ds : Int))

/-- The amended file-name convention, stated from the spec side: an
integer (optional sign, at least one digit), an optional
underscore-separated label containing no dot, and the literal extension
`sql`; the file yields version `v`, the value of the integer part. -/
def fileNameConvention (name : List Char) (v : Int) : Prop :=
  ∃ intPart lbl : List Char,
    (name = intPart ++ ('.' :: "sql".toList)
      ∨ name = (intPart ++ '_' :: lbl) ++ ('.' :: "sql".toList))
    ∧ intLiteral intPart v ∧ '.' ∉ lbl

/-- A catalog entry with total payloads, used in the concrete test
catalogs below. -/
def mig (v : Int) (u d s : String) : Migration :=
  ⟨v, Except.ok u, Except.ok d, Except.ok s⟩

/-- The snapshot-shortcut catalog of §8: versions 1 and 2, version 2
carrying a snapshot. -/
def snapCat : List Migration :=
  [mig 1 "up1" "down1" "", mig 2 "up2" "down2" "snap2"]

/-- The gap-skip catalog of §8: versions 1 to 4, up/down text only. -/
def gapCat : List Migration :=
  [mig 1 "up1" "down1" "", mig 2 "up2" "down2" "",
   mig 3 "up3" "down3" "", mig 4 "up4" "down4" ""]

/-- The basic forward catalog of §8: versions 1 and 2, no snapshots. -/
def basicCat : List Migration :=
  [mig 1 "up1" "down1" "", mig 2 "up2" "down2" ""]

/-- Catalog with versions 2 and 4 only, used to exhibit an applied
version (3) that is absent from the catalog. -/
def sparseCat : List Migration :=
  [mig 2 "up2" "down2" "", mig 4 "up4" "down4" ""]

/-- Catalog with versions 1, 2 and 3, no snapshots. -/
def cat123 : List Migration :=
  [mig 1 "up1" "down1" "", mig 2 "up2" "down2" "", mig 3 "up3" "down3" ""]

/-- A concrete statement executor over a log-of-statements backend, which
fails exactly on the statement `BOOM`; used to witness the executor's
halt-on-failure behaviour. -/
def execLog : List String → String → Except String (List String) :=
  fun s stmt => if stmt = "BOOM" then Except.error "boom" else Except.ok (s ++ [stmt])

/-! ## Sorting facts -/

theorem sortMigrations_perm (l : List Migration) : (sortMigrations l).Perm l :=
  List.perm_insertionSort _ l

theorem sortMigrations_pairwise (l : List Migration) :
    (sortMigrations l).Pairwise (fun a b => a.version ≤ b.version) := by
  haveI : IsTotal Migration (fun a b => a.version ≤ b.version) :=
    ⟨fun a b => le_total a.version b.version⟩
  haveI : IsTrans Migration (fun a b => a.version ≤ b.version) :=
    ⟨fun _ _ _ h1 h2 => le_trans h1 h2⟩
  exact List.sorted_insertionSort _ l

theorem sortInts_perm (l : List Int) : (sortInts l).Perm l :=
  List.perm_insertionSort _ l

theorem sortInts_pairwise (l : List Int) :
    (sortInts l).Pairwise (fun a b => a ≤ b) := by
  haveI : IsTotal Int (fun a b : Int => a ≤ b) := ⟨fun a b => le_total a b⟩
  haveI : IsTrans Int (fun a b : Int => a ≤ b) := ⟨fun _ _ _ h1 h2 => le_trans h1 h2⟩
  exact List.sorted_insertionSort _ l

theorem mem_sortInts {x : Int} {l : List Int} : x ∈ sortInts l ↔ x ∈ l :=
  (sortInts_perm l).mem_iff

theorem mem_sortMigrations {m : Migration} {l : List Migration} :
    m ∈ sortMigrations l ↔ m ∈ l :=
  (sortMigrations_perm l).mem_iff

/-- On a `≤`-sorted list the defaulted last element bounds every element. -/
theorem le_getLastD_of_pairwise :
    ∀ (l : List Int), l.Pairwise (fun a b => a ≤ b) → ∀ x ∈ l, x ≤ (l.getLast?).getD 0 := by
  intro l
  induction l with
  | nil => intro _ x hx; cases hx
  | cons a t ih =>
    intro hp x hx
    cases t with
    | nil =>
      have hxa : x = a := by simpa using hx
      subst hxa
      simp [List.getLast?]
    | cons b t' =>
      have hp' := List.pairwise_cons.mp hp
      have hba : a ≤ b := hp'.1 b (by simp)
      have hlast : (List.getLast? (a :: b :: t')).getD 0 = (List.getLast? (b :: t')).getD 0 := by
        simp [List.getLast?_cons_cons]
      rw [hlast]
      rcases List.mem_cons.mp hx with rfl | hx'
      · exact le_trans hba (ih hp'.2 b (by simp))
      · exact ih hp'.2 x hx'

theorem getLastD_mem : ∀ (l : List Int), l ≠ [] → (l.getLast?).getD 0 ∈ l := by
  intro l
  induction l with
  | nil => intro h; cases h rfl
  | cons a t ih =>
    intro _
    cases t with
    | nil => simp [List.getLast?]
    | cons b t' =>
      have := ih (by simp)
      rw [List.getLast?_cons_cons]
      exact List.mem_cons_of_mem a this

theorem le_planLatest {x : Int} {dbList : List Int} (hx : x ∈ dbList) :
    x ≤ planLatest dbList :=
  le_getLastD_of_pairwise _ (sortInts_pairwise dbList) x (mem_sortInts.mpr hx)

theorem planLatest_mem {dbList : List Int} (h : dbList ≠ []) :
    planLatest dbList ∈ dbList := by
  have hne : sortInts dbList ≠ [] := by
    intro hnil
    apply h
    have hp := sortInts_perm dbList
    rw [hnil] at hp
    exact hp.nil_eq.symm
  exact mem_sortInts.mp (getLastD_mem _ hne)

/-! ## Shape of `plan` -/

/-- In the forward case `plan` is exactly the forward walk. -/
theorem plan_eq_planUp {provList : List Migration} {dbList : List Int} {target : Int}
    (hne : provList ≠ []) (hfwd : planLatest dbList < target) :
    plan provList dbList target =
      planUp (sortInts dbList) target (sortMigrations provList) [] := by
  unfold plan
  rw [if_neg hne, if_pos hfwd]
  have hnb : ¬ target < planLatest dbList := not_lt.mpr (le_of_lt hfwd)
  cases hres : planUp (sortInts dbList) target (sortMigrations provList) [] with
  | error e => rfl
  | ok acts => simp [hnb]

/-- In the backward case `plan` is exactly the backward walk. -/
theorem plan_eq_planDown {provList : List Migration} {dbList : List Int} {target : Int}
    (hne : provList ≠ []) (hbwd : target < planLatest dbList) :
    plan provList dbList target =
      planDown (sortMigrations provList) target (sortInts dbList).reverse [] := by
  unfold plan
  rw [if_neg hne, if_neg (not_lt.mpr (le_of_lt hbwd))]
  simp [hbwd]

/-- When the target equals the `latest` local, `plan` returns the empty plan. -/
theorem plan_eq_empty {provList : List Migration} {dbList : List Int} {target : Int}
    (h : target = planLatest dbList) :
    plan provList dbList target = Except.ok [] := by
  unfold plan
  by_cases hne : provList = []
  · rw [if_pos hne]
  · rw [if_neg hne]
    have h1 : ¬ planLatest dbList < target := by omega
    have h2 : ¬ target < planLatest dbList := by omega
    rw [if_neg h1]
    simp [h2]

/-! ## Case analysis on the planner loops -/

theorem except_error_of_not_ok {α : Type} {e : Except String α}
    (h : ∀ a, e ≠ Except.ok a) : ∃ err, e = Except.error err := by
  cases e with
  | error err => exact ⟨err, rfl⟩
  | ok a => exact absurd rfl (h a)

/-- Exhaustive description of one successful step of the forward walk. -/
theorem planUp_cons_ok {db : List Int} {target : Int} {pm : Migration}
    {rest : List Migration} {acc acts : List Action}
    (h : planUp db target (pm :: rest) acc = Except.ok acts) :
    (target < pm.version ∧ acts = acc)
    ∨ (pm.version ≤ target ∧ pm.version ∈ db ∧
        planUp db target rest [] = Except.ok acts)
    ∨ (pm.version ≤ target ∧ pm.version ∉ db ∧ db = [] ∧
        ∃ snap, pm.snapshot = Except.ok snap ∧ 0 < snap.length ∧
          planUp db target rest [⟨pm.version, snap, Direction.up⟩] = Except.ok acts)
    ∨ (pm.version ≤ target ∧ pm.version ∉ db ∧
        ∃ u, pm.up = Except.ok u ∧
          (db = [] → ∃ snap, pm.snapshot = Except.ok snap ∧ ¬ 0 < snap.length) ∧
          planUp db target rest (acc ++ [⟨pm.version, u, Direction.up⟩]) = Except.ok acts) := by
  simp only [planUp] at h
  by_cases h1 : target < pm.version
  · rw [if_pos h1] at h
    exact Or.inl ⟨h1, by cases h; rfl⟩
  · rw [if_neg h1] at h
    have h1' : pm.version ≤ target := not_lt.mp h1
    by_cases h2 : pm.version ∈ db
    · rw [if_pos h2] at h
      exact Or.inr (Or.inl ⟨h1', h2, h⟩)
    · rw [if_neg h2] at h
      by_cases h3 : db = []
      · rw [if_pos h3] at h
        cases hsnap : pm.snapshot with
        | error e => simp only [hsnap] at h; exact Except.noConfusion h
        | ok snap =>
          simp only [hsnap] at h
          by_cases h4 : 0 < snap.length
          · rw [if_pos h4] at h
            exact Or.inr (Or.inr (Or.inl ⟨h1', h2, h3, snap, rfl, h4, h⟩))
          · rw [if_neg h4] at h
            cases hu : pm.up with
            | error e => simp only [hu] at h; exact Except.noConfusion h
            | ok u =>
              simp only [hu] at h
              exact Or.inr (Or.inr (Or.inr ⟨h1', h2, u, rfl, fun _ => ⟨snap, rfl, h4⟩, h⟩))
      · rw [if_neg h3] at h
        cases hu : pm.up with
        | error e => simp only [hu] at h; exact Except.noConfusion h
        | ok u =>
          simp only [hu] at h
          exact Or.inr (Or.inr (Or.inr ⟨h1', h2, u, rfl, fun hnil => absurd hnil h3, h⟩))

theorem planUp_nil_ok {db : List Int} {target : Int} {acc acts : List Action}
    (h : planUp db target [] acc = Except.ok acts) : acts = acc := by
  simp only [planUp] at h
  cases h; rfl

/-- Exhaustive description of one successful step of the backward walk. -/
theorem planDown_cons_ok {provSorted : List Migration} {target v : Int}
    {restRev : List Int} {acc acts : List Action}
    (h : planDown provSorted target (v :: restRev) acc = Except.ok acts) :
    (v ≤ target ∧ acts = acc)
    ∨ (target < v ∧
        ∃ pm, provSorted.find? (fun m => decide (m.version = v)) = some pm ∧
          ∃ d, pm.down = Except.ok d ∧
            planDown provSorted target restRev
              (acc ++ [⟨pm.version, d, Direction.down⟩]) = Except.ok acts)
    ∨ (target < v ∧ provSorted.find? (fun m => decide (m.version = v)) = none ∧
        planDown provSorted target restRev acc = Except.ok acts) := by
  simp only [planDown] at h
  by_cases h1 : v ≤ target
  · rw [if_pos h1] at h
    exact Or.inl ⟨h1, by cases h; rfl⟩
  · rw [if_neg h1] at h
    have h1' : target < v := not_le.mp h1
    cases hfind : provSorted.find? (fun m => decide (m.version = v)) with
    | none =>
      simp only [hfind] at h
      exact Or.inr (Or.inr ⟨h1', rfl, h⟩)
    | some pm =>
      simp only [hfind] at h
      cases hd : pm.down with
      | error e => simp only [hd] at h; exact Except.noConfusion h
      | ok d =>
        simp only [hd] at h
        exact Or.inr (Or.inl ⟨h1', pm, rfl, d, hd, h⟩)

theorem planDown_nil_ok {provSorted : List Migration} {target : Int} {acc acts : List Action}
    (h : planDown provSorted target [] acc = Except.ok acts) : acts = acc := by
  simp only [planDown] at h
  cases h; rfl

/-! ## Invariants of the forward walk -/

/-- The forward walk only ever emits forward actions. -/
theorem planUp_dirs {db : List Int} {target : Int} :
    ∀ {l : List Migration} {acc acts : List Action},
      planUp db target l acc = Except.ok acts →
      (∀ a ∈ acc, a.direction = Direction.up) →
      ∀ a ∈ acts, a.direction = Direction.up := by
  intro l
  induction l with
  | nil =>
    intro acc acts h hacc
    rw [planUp_nil_ok h]
    exact hacc
  | cons pm rest ih =>
    intro acc acts h hacc
    rcases planUp_cons_ok h with ⟨_, rfl⟩ | ⟨_, _, hrec⟩ |
      ⟨_, _, _, snap, _, _, hrec⟩ | ⟨_, _, u, _, _, hrec⟩
    · exact hacc
    · exact ih hrec (by intro a ha; cases ha)
    · refine ih hrec ?_
      intro a ha
      rcases List.mem_singleton.mp ha with rfl
      rfl
    · refine ih hrec ?_
      intro a ha
      rcases List.mem_append.mp ha with ha' | ha'
      · exact hacc a ha'
      · rcases List.mem_singleton.mp ha' with rfl
        rfl

/-- All versions in a forward plan are at most the target. -/
theorem planUp_le_target {db : List Int} {target : Int} :
    ∀ {l : List Migration} {acc acts : List Action},
      planUp db target l acc = Except.ok acts →
      (∀ a ∈ acc, a.version ≤ target) →
      ∀ a ∈ acts, a.version ≤ target := by
  intro l
  induction l with
  | nil =>
    intro acc acts h hacc
    rw [planUp_nil_ok h]
    exact hacc
  | cons pm rest ih =>
    intro acc acts h hacc
    rcases planUp_cons_ok h with ⟨_, rfl⟩ | ⟨_, _, hrec⟩ |
      ⟨hle, _, _, snap, _, _, hrec⟩ | ⟨hle, _, u, _, _, hrec⟩
    · exact hacc
    · exact ih hrec (by intro a ha; cases ha)
    · refine ih hrec ?_
      intro a ha
      rcases List.mem_singleton.mp ha with rfl
      exact hle
    · refine ih hrec ?_
      intro a ha
      rcases List.mem_append.mp ha with ha' | ha'
      · exact hacc a ha'
      · rcases List.mem_singleton.mp ha' with rfl
        exact hle

/-- Every action of a forward plan carries a catalog version, unless it
was already in the accumulator. -/
theorem planUp_version_mem {db : List Int} {target : Int} :
    ∀ {l : List Migration} {acc acts : List Action},
      planUp db target l acc = Except.ok acts →
      ∀ a ∈ acts, (∃ m ∈ l, a.version = m.version) ∨ a ∈ acc := by
  intro l
  induction l with
  | nil =>
    intro acc acts h a ha
    rw [planUp_nil_ok h] at ha
    exact Or.inr ha
  | cons pm rest ih =>
    intro acc acts h a ha
    rcases planUp_cons_ok h with ⟨_, rfl⟩ | ⟨_, _, hrec⟩ |
      ⟨_, _, _, snap, _, _, hrec⟩ | ⟨_, _, u, _, _, hrec⟩
    · exact Or.inr ha
    · rcases ih hrec a ha with ⟨m, hm, hv⟩ | hmem
      · exact Or.inl ⟨m, List.mem_cons_of_mem pm hm, hv⟩
      · cases hmem
    · rcases ih hrec a ha with ⟨m, hm, hv⟩ | hmem
      · exact Or.inl ⟨m, List.mem_cons_of_mem pm hm, hv⟩
      · rcases List.mem_singleton.mp hmem with rfl
        exact Or.inl ⟨pm, List.mem_cons_self pm rest, rfl⟩
    · rcases ih hrec a ha with ⟨m, hm, hv⟩ | hmem
      · exact Or.inl ⟨m, List.mem_cons_of_mem pm hm, hv⟩
      · rcases List.mem_append.mp hmem with ha' | ha'
        · exact Or.inr ha'
        · rcases List.mem_singleton.mp ha' with rfl
          exact Or.inl ⟨pm, List.mem_cons_self pm rest, rfl⟩

/-- On a strictly version-sorted catalog the forward walk produces a plan
with strictly increasing versions. -/
theorem planUp_pairwise {db : List Int} {target : Int} :
    ∀ {l : List Migration} {acc acts : List Action},
      planUp db target l acc = Except.ok acts →
      l.Pairwise (fun x y => x.version < y.version) →
      acc.Pairwise (fun x y => x.version < y.version) →
      (∀ a ∈ acc, ∀ m ∈ l, a.version < m.version) →
      acts.Pairwise (fun x y => x.version < y.version) := by
  intro l
  induction l with
  | nil =>
    intro acc acts h _ hacc _
    rw [planUp_nil_ok h]
    exact hacc
  | cons pm rest ih =>
    intro acc acts h hl hacc hbound
    have hl' := List.pairwise_cons.mp hl
    rcases planUp_cons_ok h with ⟨_, rfl⟩ | ⟨_, _, hrec⟩ |
      ⟨_, _, _, snap, _, _, hrec⟩ | ⟨_, _, u, _, _, hrec⟩
    · exact hacc
    · exact ih hrec hl'.2 List.Pairwise.nil (by intro a ha; cases ha)
    · refine ih hrec hl'.2 (List.pairwise_singleton _ _) ?_
      intro a ha m hm
      rcases List.mem_singleton.mp ha with rfl
      exact hl'.1 m hm
    · refine ih hrec hl'.2 ?_ ?_
      · rw [List.pairwise_append]
        refine ⟨hacc, List.pairwise_singleton _ _, ?_⟩
        intro x hx y hy
        rcases List.mem_singleton.mp hy with rfl
        exact hbound x hx pm (List.mem_cons_self pm rest)
      · intro a ha m hm
        rcases List.mem_append.mp ha with ha' | ha'
        · exact hbound a ha' m (List.mem_cons_of_mem pm hm)
        · rcases List.mem_singleton.mp ha' with rfl
          exact hl'.1 m hm

/-- Every applied version that has a catalog entry reachable by the walk
bounds the final plan from below: the reset policy discards everything
accumulated up to such a version. -/
theorem planUp_gt_applied {db : List Int} {target : Int} :
    ∀ {l : List Migration} {acc acts : List Action},
      planUp db target l acc = Except.ok acts →
      l.Pairwise (fun x y => x.version < y.version) →
      (∀ u ∈ db, u ≤ target) →
      ∀ w ∈ db, (∃ m ∈ l, m.version = w) → ∀ a ∈ acts, w < a.version := by
  intro l
  induction l with
  | nil =>
    intro acc acts _ _ _ w _ hex
    rcases hex with ⟨m, hm, _⟩
    cases hm
  | cons pm rest ih =>
    intro acc acts h hl hdb w hwdb hex a ha
    have hl' := List.pairwise_cons.mp hl
    rcases hex with ⟨m, hm, hmv⟩
    rcases planUp_cons_ok h with ⟨hbr, rfl⟩ | ⟨hle, hmem, hrec⟩ |
      ⟨_, hnm, hdbnil, snap, _, _, hrec⟩ | ⟨_, hnm, u, _, _, hrec⟩
    · -- break: impossible to have a reachable catalog copy of w here
      have hwt : w ≤ target := hdb w hwdb
      rcases List.mem_cons.mp hm with rfl | hm'
      · omega
      · have := hl'.1 m hm'
        omega
    · rcases List.mem_cons.mp hm with rfl | hm'
      · -- w is this migration's version: everything surviving comes later
        rcases planUp_version_mem hrec a ha with ⟨m', hm', hv⟩ | hmem'
        · rw [hv, ← hmv]
          exact hl'.1 m' hm'
        · cases hmem'
      · exact ih hrec hl'.2 hdb w hwdb ⟨m, hm', hmv⟩ a ha
    · rw [hdbnil] at hwdb
      cases hwdb
    · rcases List.mem_cons.mp hm with rfl | hm'
      · exact absurd hwdb (hmv ▸ hnm)
      · exact ih hrec hl'.2 hdb w hwdb ⟨m, hm', hmv⟩ a ha

/-- A successful forward walk either extends its accumulator or some
migration reachable in the walk discarded it (because its version was
applied, or because its snapshot made it into the final plan). -/
theorem planUp_acc_extends {db : List Int} {target : Int} :
    ∀ {l : List Migration} {acc acts : List Action},
      planUp db target l acc = Except.ok acts →
      (∃ t, acts = acc ++ t) ∨
        ∃ m ∈ l, m.version ≤ target ∧
          (m.version ∈ db ∨ ∃ a ∈ acts, a.version = m.version) := by
  intro l
  induction l with
  | nil =>
    intro acc acts h
    exact Or.inl ⟨[], by rw [planUp_nil_ok h, List.append_nil]⟩
  | cons pm rest ih =>
    intro acc acts h
    rcases planUp_cons_ok h with ⟨_, rfl⟩ | ⟨hle, hmem, hrec⟩ |
      ⟨hle, _, _, snap, _, _, hrec⟩ | ⟨hle, _, u, _, _, hrec⟩
    · exact Or.inl ⟨[], by rw [List.append_nil]⟩
    · exact Or.inr ⟨pm, List.mem_cons_self pm rest, hle, Or.inl hmem⟩
    · rcases ih hrec with ⟨t, rfl⟩ | ⟨m, hm, hle', htrig⟩
      · refine Or.inr ⟨pm, List.mem_cons_self pm rest, hle, Or.inr ?_⟩
        exact ⟨⟨pm.version, snap, Direction.up⟩, by simp, rfl⟩
      · exact Or.inr ⟨m, List.mem_cons_of_mem pm hm, hle', htrig⟩
    · rcases ih hrec with ⟨t, heq⟩ | ⟨m, hm, hle', htrig⟩
      · exact Or.inl ⟨⟨pm.version, u, Direction.up⟩ :: t, by rw [heq, List.append_assoc]; rfl⟩
      · exact Or.inr ⟨m, List.mem_cons_of_mem pm hm, hle', htrig⟩

/-- If a reachable, unapplied catalog migration contributes nothing to a
successful forward plan, then a strictly later reachable migration is
applied or contributes — the walk never just loses a migration. -/
theorem planUp_skipped_trigger {db : List Int} {target : Int} :
    ∀ (l1 : List Migration) (pm : Migration) (rest2 : List Migration)
      {acc acts : List Action},
      planUp db target (l1 ++ pm :: rest2) acc = Except.ok acts →
      (l1 ++ pm :: rest2).Pairwise (fun x y => x.version ≤ y.version) →
      pm.version ≤ target → pm.version ∉ db →
      (∀ a ∈ acts, a.version ≠ pm.version) →
      ∃ m' ∈ rest2, m'.version ≤ target ∧
        (m'.version ∈ db ∨ ∃ a ∈ acts, a.version = m'.version) := by
  intro l1
  induction l1 with
  | nil =>
    intro pm rest2 acc acts h hp hle hnmem hnoact
    rcases planUp_cons_ok h with ⟨hbr, rfl⟩ | ⟨_, hmem, _⟩ |
      ⟨_, _, _, snap, _, _, hrec⟩ | ⟨_, _, u, _, _, hrec⟩
    · omega
    · exact absurd hmem hnmem
    · rcases planUp_acc_extends hrec with ⟨t, rfl⟩ | ⟨m', hm', hle', htrig⟩
      · exact absurd rfl (hnoact ⟨pm.version, snap, Direction.up⟩ (by simp))
      · exact ⟨m', hm', hle', htrig⟩
    · rcases planUp_acc_extends hrec with ⟨t, heq⟩ | ⟨m', hm', hle', htrig⟩
      · have hmem : Action.mk pm.version u Direction.up ∈ acts := by
          rw [heq]; simp
        exact absurd rfl (hnoact _ hmem)
      · exact ⟨m', hm', hle', htrig⟩
  | cons x l1' ih =>
    intro pm rest2 acc acts h hp hle hnmem hnoact
    have hx : x.version ≤ pm.version :=
      (List.pairwise_cons.mp hp).1 pm (by simp)
    have hp' := (List.pairwise_cons.mp hp).2
    rcases planUp_cons_ok h with ⟨hbr, rfl⟩ | ⟨_, _, hrec⟩ |
      ⟨_, _, _, snap, _, _, hrec⟩ | ⟨_, _, u, _, _, hrec⟩
    · omega
    · exact ih pm rest2 hrec hp' hle hnmem hnoact
    · exact ih pm rest2 hrec hp' hle hnmem hnoact
    · exact ih pm rest2 hrec hp' hle hnmem hnoact

/-- If every reachable unapplied migration is followed by a reachable
applied one (and its forward text loads), the forward walk produces the
empty plan: the final reset always wins. -/
theorem planUp_all_covered {db2 : List Int} {target : Int} :
    ∀ (l : List Migration) (acc : List Action),
      l.Pairwise (fun x y => x.version ≤ y.version) →
      (∀ l1 pm rest2, l = l1 ++ pm :: rest2 → pm.version ≤ target → pm.version ∉ db2 →
        ∃ m' ∈ rest2, m'.version ≤ target ∧ m'.version ∈ db2) →
      (∀ m ∈ l, m.version ≤ target → m.version ∉ db2 → ∃ s, m.up = Except.ok s) →
      (acc = [] ∨ ∃ m' ∈ l, m'.version ≤ target ∧ m'.version ∈ db2) →
      planUp db2 target l acc = Except.ok [] := by
  intro l
  induction l with
  | nil =>
    intro acc _ _ _ hacc
    rcases hacc with rfl | ⟨m', hm', _⟩
    · rfl
    · cases hm'
  | cons pm rest ih =>
    intro acc hp hcond hupok hacc
    have hp' := (List.pairwise_cons.mp hp).2
    have hcond' : ∀ l1 m' rest2, rest = l1 ++ m' :: rest2 → m'.version ≤ target →
        m'.version ∉ db2 → ∃ m'' ∈ rest2, m''.version ≤ target ∧ m''.version ∈ db2 := by
      intro l1 m' rest2 heq hle hnm
      exact hcond (pm :: l1) m' rest2 (by rw [heq]; rfl) hle hnm
    have hupok' : ∀ m ∈ rest, m.version ≤ target → m.version ∉ db2 → ∃ s, m.up = Except.ok s := by
      intro m hm hle hnm
      exact hupok m (List.mem_cons_of_mem pm hm) hle hnm
    by_cases h1 : target < pm.version
    · have hacc0 : acc = [] := by
        rcases hacc with rfl | ⟨m', hm', hle', _⟩
        · rfl
        · rcases List.mem_cons.mp hm' with rfl | hm''
          · omega
          · have := (List.pairwise_cons.mp hp).1 m' hm''
            omega
      subst hacc0
      simp only [planUp]
      rw [if_pos h1]
    · by_cases h2 : pm.version ∈ db2
      · have hres : planUp db2 target rest [] = Except.ok [] :=
          ih [] hp' hcond' hupok' (Or.inl rfl)
        simp only [planUp]
        rw [if_neg h1, if_pos h2]
        exact hres
      · have h1' : pm.version ≤ target := not_lt.mp h1
        obtain ⟨m', hm', hle', hmem'⟩ := hcond [] pm rest rfl h1' h2
        have hdb2 : db2 ≠ [] := by
          intro hnil
          rw [hnil] at hmem'
          cases hmem'
        obtain ⟨u, hu⟩ := hupok pm (List.mem_cons_self pm rest) h1' h2
        have hres : planUp db2 target rest (acc ++ [⟨pm.version, u, Direction.up⟩]) =
            Except.ok [] :=
          ih _ hp' hcond' hupok' (Or.inr ⟨m', hm', hle', hmem'⟩)
        simp only [planUp]
        rw [if_neg h1, if_neg h2, if_neg hdb2]
        simp only [hu]
        exact hres

/-! ## Invariants of the backward walk -/

/-- The backward walk only ever emits backward actions. -/
theorem planDown_dirs {provSorted : List Migration} {target : Int} :
    ∀ {rev : List Int} {acc acts : List Action},
      planDown provSorted target rev acc = Except.ok acts →
      (∀ a ∈ acc, a.direction = Direction.down) →
      ∀ a ∈ acts, a.direction = Direction.down := by
  intro rev
  induction rev with
  | nil =>
    intro acc acts h hacc
    rw [planDown_nil_ok h]
    exact hacc
  | cons v restRev ih =>
    intro acc acts h hacc
    rcases planDown_cons_ok h with ⟨_, rfl⟩ | ⟨_, pm, _, d, _, hrec⟩ | ⟨_, _, hrec⟩
    · exact hacc
    · refine ih hrec ?_
      intro a ha
      rcases List.mem_append.mp ha with ha' | ha'
      · exact hacc a ha'
      · rcases List.mem_singleton.mp ha' with rfl
        rfl
    · exact ih hrec hacc

/-- Every action of a backward plan carries an applied version that also
has a catalog entry. -/
theorem planDown_version_mem {provSorted : List Migration} {target : Int} :
    ∀ {rev : List Int} {acc acts : List Action},
      planDown provSorted target rev acc = Except.ok acts →
      ∀ a ∈ acts,
        (a.version ∈ rev ∧ ∃ m ∈ provSorted, m.version = a.version) ∨ a ∈ acc := by
  intro rev
  induction rev with
  | nil =>
    intro acc acts h a ha
    rw [planDown_nil_ok h] at ha
    exact Or.inr ha
  | cons v restRev ih =>
    intro acc acts h a ha
    rcases planDown_cons_ok h with ⟨_, rfl⟩ | ⟨_, pm, hfind, d, _, hrec⟩ | ⟨_, _, hrec⟩
    · exact Or.inr ha
    · have hpmv : pm.version = v := by
        have := List.find?_some hfind
        exact of_decide_eq_true this
      rcases ih hrec a ha with ⟨hrev, hm⟩ | hmem
      · exact Or.inl ⟨List.mem_cons_of_mem v hrev, hm⟩
      · rcases List.mem_append.mp hmem with ha' | ha'
        · exact Or.inr ha'
        · rcases List.mem_singleton.mp ha' with rfl
          refine Or.inl ⟨?_, pm, List.mem_of_find?_eq_some hfind, rfl⟩
          rw [hpmv]
          exact List.mem_cons_self v restRev
    · rcases ih hrec a ha with ⟨hrev, hm⟩ | hmem
      · exact Or.inl ⟨List.mem_cons_of_mem v hrev, hm⟩
      · exact Or.inr hmem

/-- On a strictly descending applied list the backward walk produces a
plan with strictly decreasing versions. -/
theorem planDown_pairwise_gt {provSorted : List Migration} {target : Int} :
    ∀ {rev : List Int} {acc acts : List Action},
      planDown provSorted target rev acc = Except.ok acts →
      rev.Pairwise (fun a b => b < a) →
      acc.Pairwise (fun x y => y.version < x.version) →
      (∀ x ∈ acc, ∀ v ∈ rev, v < x.version) →
      acts.Pairwise (fun x y => y.version < x.version) := by
  intro rev
  induction rev with
  | nil =>
    intro acc acts h _ hacc _
    rw [planDown_nil_ok h]
    exact hacc
  | cons v restRev ih =>
    intro acc acts h hrev hacc hbound
    have hrev' := List.pairwise_cons.mp hrev
    rcases planDown_cons_ok h with ⟨_, rfl⟩ | ⟨_, pm, hfind, d, _, hrec⟩ | ⟨_, _, hrec⟩
    · exact hacc
    · have hb := List.find?_some hfind
      have hpmv : pm.version = v := of_decide_eq_true hb
      refine ih hrec hrev'.2 ?_ ?_
      · rw [List.pairwise_append]
        refine ⟨hacc, List.pairwise_singleton _ _, ?_⟩
        intro x hx y hy
        rcases List.mem_singleton.mp hy with rfl
        show pm.version < x.version
        rw [hpmv]
        exact hbound x hx v (List.mem_cons_self v restRev)
      · intro x hx v' hv'
        rcases List.mem_append.mp hx with hx' | hx'
        · exact hbound x hx' v' (List.mem_cons_of_mem v hv')
        · rcases List.mem_singleton.mp hx' with rfl
          show v' < pm.version
          rw [hpmv]
          exact hrev'.1 v' hv'
    · refine ih hrec hrev'.2 hacc ?_
      intro x hx v' hv'
      exact hbound x hx v' (List.mem_cons_of_mem v hv')

/-! ## Error propagation during planning -/

/-- A reachable unapplied migration whose forward text fails to load
forbids a successful forward walk (applied list non-empty). -/
theorem planUp_up_error_no_ok {db : List Int} {target : Int} {m : Migration} {e : String} :
    ∀ {l : List Migration} {acc acts : List Action},
      planUp db target l acc = Except.ok acts →
      l.Pairwise (fun x y => x.version ≤ y.version) →
      m ∈ l → m.version ≤ target → m.version ∉ db → db ≠ [] →
      m.up = Except.error e → False := by
  intro l
  induction l with
  | nil =>
    intro acc acts _ _ hm _ _ _ _
    cases hm
  | cons pm rest ih =>
    intro acc acts h hp hm hle hnmem hdb herr
    have hp' := List.pairwise_cons.mp hp
    rcases planUp_cons_ok h with ⟨hbr, _⟩ | ⟨_, hmem, hrec⟩ |
      ⟨_, _, hdbnil, snap, _, _, hrec⟩ | ⟨_, hnm, u, hu, _, hrec⟩
    · rcases List.mem_cons.mp hm with rfl | hm'
      · omega
      · have := hp'.1 m hm'
        omega
    · rcases List.mem_cons.mp hm with rfl | hm'
      · exact absurd hmem hnmem
      · exact ih hrec hp'.2 hm' hle hnmem hdb herr
    · exact absurd hdbnil hdb
    · rcases List.mem_cons.mp hm with rfl | hm'
      · rw [herr] at hu
        cases hu
      · exact ih hrec hp'.2 hm' hle hnmem hdb herr

/-- With no applied versions, a reachable migration whose snapshot fails
to load forbids a successful forward walk. -/
theorem planUp_snapshot_error_no_ok {target : Int} {m : Migration} {e : String} :
    ∀ {l : List Migration} {acc acts : List Action},
      planUp [] target l acc = Except.ok acts →
      l.Pairwise (fun x y => x.version ≤ y.version) →
      m ∈ l → m.version ≤ target →
      m.snapshot = Except.error e → False := by
  intro l
  induction l with
  | nil =>
    intro acc acts _ _ hm _ _
    cases hm
  | cons pm rest ih =>
    intro acc acts h hp hm hle herr
    have hp' := List.pairwise_cons.mp hp
    rcases planUp_cons_ok h with ⟨hbr, _⟩ | ⟨_, hmem, hrec⟩ |
      ⟨_, _, _, snap, hsnap, _, hrec⟩ | ⟨_, _, u, _, hsnapinfo, hrec⟩
    · rcases List.mem_cons.mp hm with rfl | hm'
      · omega
      · have := hp'.1 m hm'
        omega
    · cases hmem
    · rcases List.mem_cons.mp hm with rfl | hm'
      · rw [herr] at hsnap
        cases hsnap
      · exact ih hrec hp'.2 hm' hle herr
    · rcases List.mem_cons.mp hm with rfl | hm'
      · obtain ⟨snap, hsnap, _⟩ := hsnapinfo rfl
        rw [herr] at hsnap
        cases hsnap
      · exact ih hrec hp'.2 hm' hle herr

/-- With no applied versions, a reachable migration whose snapshot is
empty (so the walk falls through to the forward text) and whose forward
text fails to load forbids a successful forward walk. -/
theorem planUp_up_error_empty_db_no_ok {target : Int} {m : Migration} {s e : String} :
    ∀ {l : List Migration} {acc acts : List Action},
      planUp [] target l acc = Except.ok acts →
      l.Pairwise (fun x y => x.version ≤ y.version) →
      m ∈ l → m.version ≤ target →
      m.snapshot = Except.ok s → ¬ 0 < s.length →
      m.up = Except.error e → False := by
  intro l
  induction l with
  | nil =>
    intro acc acts _ _ hm _ _ _ _
    cases hm
  | cons pm rest ih =>
    intro acc acts h hp hm hle hsnap0 hslen herr
    have hp' := List.pairwise_cons.mp hp
    rcases planUp_cons_ok h with ⟨hbr, _⟩ | ⟨_, hmem, hrec⟩ |
      ⟨_, _, _, snap, hsnap, hpos, hrec⟩ | ⟨_, _, u, hu, _, hrec⟩
    · rcases List.mem_cons.mp hm with rfl | hm'
      · omega
      · have := hp'.1 m hm'
        omega
    · cases hmem
    · rcases List.mem_cons.mp hm with rfl | hm'
      · rw [hsnap0] at hsnap
        cases hsnap
        exact hslen hpos
      · exact ih hrec hp'.2 hm' hle hsnap0 hslen herr
    · rcases List.mem_cons.mp hm with rfl | hm'
      · rw [herr] at hu
        cases hu
      · exact ih hrec hp'.2 hm' hle hsnap0 hslen herr

/-- An applied version above the target whose catalog entry's backward
text fails to load forbids a successful backward walk. -/
theorem planDown_down_error_no_ok {provSorted : List Migration} {target v : Int} :
    ∀ {rev : List Int} {acc acts : List Action},
      planDown provSorted target rev acc = Except.ok acts →
      rev.Pairwise (fun a b => b ≤ a) →
      v ∈ rev → target < v →
      (∃ m ∈ provSorted, m.version = v) →
      (∀ m ∈ provSorted, m.version = v → ∃ e2, m.down = Except.error e2) → False := by
  intro rev
  induction rev with
  | nil =>
    intro acc acts _ _ hv _ _ _
    cases hv
  | cons w restRev ih =>
    intro acc acts h hrev hv htv hex herr
    have hrev' := List.pairwise_cons.mp hrev
    rcases planDown_cons_ok h with ⟨hbr, _⟩ | ⟨_, pm, hfind, d, hd, hrec⟩ | ⟨_, hfind, hrec⟩
    · rcases List.mem_cons.mp hv with rfl | hv'
      · omega
      · have := hrev'.1 v hv'
        omega
    · rcases List.mem_cons.mp hv with rfl | hv'
      · have hb := List.find?_some hfind
        have hpmv : pm.version = v := of_decide_eq_true hb
        obtain ⟨e2, he2⟩ := herr pm (List.mem_of_find?_eq_some hfind) hpmv
        rw [he2] at hd
        cases hd
      · exact ih hrec hrev'.2 hv' htv hex herr
    · rcases List.mem_cons.mp hv with rfl | hv'
      · obtain ⟨m, hm, hmv⟩ := hex
        have : (provSorted.find? (fun m => decide (m.version = v))).isSome := by
          rw [List.find?_isSome]
          exact ⟨m, hm, decide_eq_true hmv⟩
        rw [hfind] at this
        cases this
      · exact ih hrec hrev'.2 hv' htv hex herr

/-! ## Totality of planning under total payloads -/

/-- If every catalog migration's forward and snapshot texts load, the
forward walk cannot fail. -/
theorem planUp_total {db : List Int} {target : Int} :
    ∀ {l : List Migration} (acc : List Action),
      (∀ m ∈ l, (∃ s, m.up = Except.ok s) ∧ (∃ s, m.snapshot = Except.ok s)) →
      ∃ acts, planUp db target l acc = Except.ok acts := by
  intro l
  induction l with
  | nil => intro acc _; exact ⟨acc, rfl⟩
  | cons pm rest ih =>
    intro acc htot
    have htot' : ∀ m ∈ rest, (∃ s, m.up = Except.ok s) ∧ (∃ s, m.snapshot = Except.ok s) := by
      intro m hm
      exact htot m (List.mem_cons_of_mem pm hm)
    by_cases h1 : target < pm.version
    · exact ⟨acc, by simp only [planUp]; rw [if_pos h1]⟩
    · by_cases h2 : pm.version ∈ db
      · obtain ⟨acts, hacts⟩ := ih [] htot'
        exact ⟨acts, by simp only [planUp]; rw [if_neg h1, if_pos h2]; exact hacts⟩
      · by_cases h3 : db = []
        · obtain ⟨snap, hsnap⟩ := (htot pm (List.mem_cons_self pm rest)).2
          by_cases h4 : 0 < snap.length
          · obtain ⟨acts, hacts⟩ := ih [⟨pm.version, snap, Direction.up⟩] htot'
            refine ⟨acts, ?_⟩
            simp only [planUp]
            rw [if_neg h1, if_neg h2, if_pos h3]
            simp only [hsnap]
            rw [if_pos h4]
            exact hacts
          · obtain ⟨u, hu⟩ := (htot pm (List.mem_cons_self pm rest)).1
            obtain ⟨acts, hacts⟩ := ih (acc ++ [⟨pm.version, u, Direction.up⟩]) htot'
            refine ⟨acts, ?_⟩
            simp only [planUp]
            rw [if_neg h1, if_neg h2, if_pos h3]
            simp only [hsnap]
            rw [if_neg h4]
            simp only [hu]
            exact hacts
        · obtain ⟨u, hu⟩ := (htot pm (List.mem_cons_self pm rest)).1
          obtain ⟨acts, hacts⟩ := ih (acc ++ [⟨pm.version, u, Direction.up⟩]) htot'
          refine ⟨acts, ?_⟩
          simp only [planUp]
          rw [if_neg h1, if_neg h2, if_neg h3]
          simp only [hu]
          exact hacts

/-- If every catalog migration's backward text loads, the backward walk
cannot fail. -/
theorem planDown_total {provSorted : List Migration} {target : Int} :
    ∀ {rev : List Int} (acc : List Action),
      (∀ m ∈ provSorted, ∃ s, m.down = Except.ok s) →
      ∃ acts, planDown provSorted target rev acc = Except.ok acts := by
  intro rev
  induction rev with
  | nil => intro acc _; exact ⟨acc, rfl⟩
  | cons v restRev ih =>
    intro acc htot
    by_cases h1 : v ≤ target
    · exact ⟨acc, by simp only [planDown]; rw [if_pos h1]⟩
    · cases hfind : provSorted.find? (fun m => decide (m.version = v)) with
      | none =>
        obtain ⟨acts, hacts⟩ := ih acc htot
        refine ⟨acts, ?_⟩
        simp only [planDown]
        rw [if_neg h1]
        simp only [hfind]
        exact hacts
      | some pm =>
        obtain ⟨d, hd⟩ := htot pm (List.mem_of_find?_eq_some hfind)
        obtain ⟨acts, hacts⟩ := ih (acc ++ [⟨pm.version, d, Direction.down⟩]) htot
        refine ⟨acts, ?_⟩
        simp only [planDown]
        rw [if_neg h1]
        simp only [hfind, hd]
        exact hacts

/-! ## Strictly sorted inputs under the data-model invariants -/

theorem sortMigrations_pairwise_lt {provList : List Migration}
    (hnd : (provList.map Migration.version).Nodup) :
    (sortMigrations provList).Pairwise (fun x y => x.version < y.version) := by
  have hperm : ((sortMigrations provList).map Migration.version).Perm
      (provList.map Migration.version) :=
    (sortMigrations_perm provList).map Migration.version
  have hnd2 : ((sortMigrations provList).map Migration.version).Nodup :=
    hnd.perm hperm.symm
  have hne : (sortMigrations provList).Pairwise (fun x y => x.version ≠ y.version) :=
    List.pairwise_map.mp hnd2
  exact ((sortMigrations_pairwise provList).and hne).imp
    (fun hab => lt_of_le_of_ne hab.1 hab.2)

theorem sortInts_pairwise_lt {dbList : List Int} (hnd : dbList.Nodup) :
    (sortInts dbList).Pairwise (fun a b => a < b) := by
  have hnd2 : (sortInts dbList).Nodup := hnd.perm (sortInts_perm dbList).symm
  exact ((sortInts_pairwise dbList).and hnd2).imp
    (fun hab => lt_of_le_of_ne hab.1 hab.2)

/-! ## Direction analysis of a successful plan -/

/-- A successful plan consists of only forward or only backward actions. -/
theorem plan_dirs_split {provList : List Migration} {dbList : List Int} {target : Int}
    {acts : List Action} (h : plan provList dbList target = Except.ok acts) :
    (∀ a ∈ acts, a.direction = Direction.up) ∨
      (∀ a ∈ acts, a.direction = Direction.down) := by
  by_cases hne : provList = []
  · subst hne
    unfold plan at h
    rw [if_pos rfl] at h
    cases h
    exact Or.inl (by intro a ha; cases ha)
  · rcases lt_trichotomy (planLatest dbList) target with hlt | heq | hgt
    · rw [plan_eq_planUp hne hlt] at h
      exact Or.inl (planUp_dirs h (by intro a ha; cases ha))
    · rw [plan_eq_empty heq.symm] at h
      cases h
      exact Or.inl (by intro a ha; cases ha)
    · rw [plan_eq_planDown hne hgt] at h
      exact Or.inr (planDown_dirs h (by intro a ha; cases ha))

/-- A plan containing a forward action was produced by the forward walk. -/
theorem plan_forward_acts {provList : List Migration} {dbList : List Int} {target : Int}
    {acts : List Action} (h : plan provList dbList target = Except.ok acts)
    (hex : ∃ a ∈ acts, a.direction = Direction.up) :
    planLatest dbList < target ∧
      planUp (sortInts dbList) target (sortMigrations provList) [] = Except.ok acts := by
  obtain ⟨a, ha, hdir⟩ := hex
  by_cases hne : provList = []
  · subst hne
    unfold plan at h
    rw [if_pos rfl] at h
    cases h
    cases ha
  · rcases lt_trichotomy (planLatest dbList) target with hlt | heq | hgt
    · rw [plan_eq_planUp hne hlt] at h
      exact ⟨hlt, h⟩
    · rw [plan_eq_empty heq.symm] at h
      cases h
      cases ha
    · rw [plan_eq_planDown hne hgt] at h
      have := planDown_dirs h (by intro x hx; cases hx) a ha
      rw [hdir] at this
      cases this

/-- A plan containing a backward action was produced by the backward walk. -/
theorem plan_backward_acts {provList : List Migration} {dbList : List Int} {target : Int}
    {acts : List Action} (h : plan provList dbList target = Except.ok acts)
    (hex : ∃ a ∈ acts, a.direction = Direction.down) :
    target < planLatest dbList ∧
      planDown (sortMigrations provList) target (sortInts dbList).reverse [] =
        Except.ok acts := by
  obtain ⟨a, ha, hdir⟩ := hex
  by_cases hne : provList = []
  · subst hne
    unfold plan at h
    rw [if_pos rfl] at h
    cases h
    cases ha
  · rcases lt_trichotomy (planLatest dbList) target with hlt | heq | hgt
    · rw [plan_eq_planUp hne hlt] at h
      have := planUp_dirs h (by intro x hx; cases hx) a ha
      rw [hdir] at this
      cases this
    · rw [plan_eq_empty heq.symm] at h
      cases h
      cases ha
    · rw [plan_eq_planDown hne hgt] at h
      exact ⟨hgt, h⟩

/-! ## Claim C1 -/

/-- C1 (corrected): for every catalog with pairwise-distinct versions and
duplicate-free applied set, a successful plan never mixes directions;
a plan containing forward actions has strictly increasing versions, all
greater than every applied version that appears in the catalog (hence
greater than the highest such version); a plan containing backward
actions has strictly decreasing versions, all of them applied versions.
The original claim bounded forward plans by the highest applied version
outright; that fails when an applied version is absent from the catalog
(see the counterexample), so the bound is restricted to applied versions
present in the catalog. -/
theorem C1_plan_directions_and_bounds
    (provList : List Migration) (dbList : List Int) (target : Int) (acts : List Action)
    (hndP : (provList.map Migration.version).Nodup)
    (hndD : dbList.Nodup)
    (h : plan provList dbList target = Except.ok acts) :
    ((∀ a ∈ acts, a.direction = Direction.up) ∨
      (∀ a ∈ acts, a.direction = Direction.down))
    ∧ ((∃ a ∈ acts, a.direction = Direction.up) →
        acts.Pairwise (fun x y => x.version < y.version) ∧
          ∀ w ∈ dbList, w ∈ provList.map Migration.version →
            ∀ a ∈ acts, w < a.version)
    ∧ ((∃ a ∈ acts, a.direction = Direction.down) →
        acts.Pairwise (fun x y => y.version < x.version) ∧
          ∀ a ∈ acts, a.version ∈ dbList) := by
  refine ⟨plan_dirs_split h, ?_, ?_⟩
  · intro hex
    obtain ⟨hlt, hup⟩ := plan_forward_acts h hex
    refine ⟨?_, ?_⟩
    · exact planUp_pairwise hup (sortMigrations_pairwise_lt hndP)
        List.Pairwise.nil (by intro a ha; cases ha)
    · intro w hw hwcat a ha
      have hbound : ∀ u ∈ sortInts dbList, u ≤ target := by
        intro u hu
        have := le_planLatest (mem_sortInts.mp hu)
        omega
      obtain ⟨m, hm, hmv⟩ := List.mem_map.mp hwcat
      exact planUp_gt_applied hup (sortMigrations_pairwise_lt hndP) hbound
        w (mem_sortInts.mpr hw) ⟨m, mem_sortMigrations.mpr hm, hmv⟩ a ha
  · intro hex
    obtain ⟨hgt, hdown⟩ := plan_backward_acts h hex
    refine ⟨?_, ?_⟩
    · refine planDown_pairwise_gt hdown ?_ List.Pairwise.nil (by intro x hx; cases hx)
      exact List.pairwise_reverse.mpr (sortInts_pairwise_lt hndD)
    · intro a ha
      rcases planDown_version_mem hdown a ha with ⟨hrev, _⟩ | hmem
      · exact mem_sortInts.mp (List.mem_reverse.mp hrev)
      · cases hmem

/-- C1 counterexample to the original claim: catalog versions {2, 4},
applied set {3}, target 4.  The plan is forward and non-empty, yet its
first action's version 2 is not greater than the highest
previously-applied version `currentVersion [3] = 3`. -/
theorem C1_counterexample :
    plan sparseCat [3] 4 =
      Except.ok [⟨2, "up2", Direction.up⟩, ⟨4, "up4", Direction.up⟩]
    ∧ (∀ a ∈ [(⟨2, "up2", Direction.up⟩ : Action), ⟨4, "up4", Direction.up⟩],
        a.direction = Direction.up)
    ∧ ¬ (∀ a ∈ [(⟨2, "up2", Direction.up⟩ : Action), ⟨4, "up4", Direction.up⟩],
        currentVersion [3] < a.version) := by
  refine ⟨by decide, by decide, by decide⟩

/-- C1 witness: the amended invariants at catalog {1, 2}, applied {1},
target 2, plan `[(2, up2, up)]`. -/
theorem C1_witness :
    ((∀ a ∈ [(⟨2, "up2", Direction.up⟩ : Action)], a.direction = Direction.up) ∨
      (∀ a ∈ [(⟨2, "up2", Direction.up⟩ : Action)], a.direction = Direction.down))
    ∧ ((∃ a ∈ [(⟨2, "up2", Direction.up⟩ : Action)], a.direction = Direction.up) →
        List.Pairwise (fun x y => x.version < y.version)
            [(⟨2, "up2", Direction.up⟩ : Action)] ∧
          ∀ w ∈ [(1 : Int)], w ∈ basicCat.map Migration.version →
            ∀ a ∈ [(⟨2, "up2", Direction.up⟩ : Action)], w < a.version)
    ∧ ((∃ a ∈ [(⟨2, "up2", Direction.up⟩ : Action)], a.direction = Direction.down) →
        List.Pairwise (fun x y => y.version < x.version)
            [(⟨2, "up2", Direction.up⟩ : Action)] ∧
          ∀ a ∈ [(⟨2, "up2", Direction.up⟩ : Action)], a.version ∈ [(1 : Int)]) :=
  C1_plan_directions_and_bounds basicCat [1] 2 [⟨2, "up2", Direction.up⟩]
    (by decide) (by decide) (by decide)

/-! ## Claims C2 and C3 -/

/-- C2 (confirmed): with an empty applied set, when the forward walk
reaches a migration whose version is within the target and whose
snapshot payload is non-empty, it discards every accumulated action,
replaces them with the single forward snapshot action at that version,
and continues the walk; in particular, for the catalog
{1:(up1,down1), 2:(up2,down2,snap2)}, empty applied state and target 2,
the plan is exactly `[(2, up, snap2)]`. -/
theorem C2_snapshot_shortcut :
    (∀ (target : Int) (pm : Migration) (rest : List Migration)
        (acc : List Action) (s : String),
      pm.snapshot = Except.ok s → 0 < s.length → pm.version ≤ target →
        planUp [] target (pm :: rest) acc =
          planUp [] target rest [⟨pm.version, s, Direction.up⟩])
    ∧ plan snapCat [] 2 = Except.ok [⟨2, "snap2", Direction.up⟩] := by
  constructor
  · intro target pm rest acc s hs hlen hle
    simp only [planUp]
    rw [if_neg (not_lt.mpr hle), if_neg (List.not_mem_nil pm.version), if_pos trivial]
    simp only [hs]
    rw [if_pos hlen]
  · decide

/-- C2 witness: one snapshot step at version 2 over a non-empty
accumulator, which it discards. -/
theorem C2_witness :
    planUp [] 2 [mig 2 "up2" "down2" "snap2"] [⟨1, "up1", Direction.up⟩] =
      planUp [] 2 [] [⟨2, "snap2", Direction.up⟩] :=
  C2_snapshot_shortcut.1 2 (mig 2 "up2" "down2" "snap2") [] [⟨1, "up1", Direction.up⟩]
    "snap2" rfl (by decide) (by decide)

/-- C3 (confirmed): when the forward walk reaches a catalog migration
whose version is already applied, it discards all accumulated actions
and continues scanning forward; in particular, for catalog {1,2,3,4},
applied {1,3} and target 4, the plan is exactly `[(4, up, up4)]`. -/
theorem C3_reset_on_applied :
    (∀ (db : List Int) (target : Int) (pm : Migration) (rest : List Migration)
        (acc : List Action),
      pm.version ∈ db → pm.version ≤ target →
        planUp db target (pm :: rest) acc = planUp db target rest [])
    ∧ plan gapCat [1, 3] 4 = Except.ok [⟨4, "up4", Direction.up⟩] := by
  constructor
  · intro db target pm rest acc hmem hle
    simp only [planUp]
    rw [if_neg (not_lt.mpr hle), if_pos hmem]
  · decide

/-- C3 witness: one reset step at applied version 3 over a non-empty
accumulator, which it discards. -/
theorem C3_witness :
    planUp [1, 3] 4 [mig 3 "up3" "down3" ""] [⟨2, "up2", Direction.up⟩] =
      planUp [1, 3] 4 [] [] :=
  C3_reset_on_applied.1 [1, 3] 4 (mig 3 "up3" "down3" "") [] [⟨2, "up2", Direction.up⟩]
    (by decide) (by decide)

/-! ## Claim C4 -/

/-- Applying an all-forward plan appends its versions to the applied set. -/
theorem applyPlan_all_up :
    ∀ {acts : List Action} {db : List Int},
      (∀ a ∈ acts, a.direction = Direction.up) →
      applyPlan db acts = db ++ acts.map Action.version := by
  intro acts
  induction acts with
  | nil => intro db _; simp [applyPlan]
  | cons a rest ih =>
    intro db hdir
    have hda : a.direction = Direction.up := hdir a (List.mem_cons_self a rest)
    have hstep : applyPlan db (a :: rest) = applyPlan (db ++ [a.version]) rest := by
      simp only [applyPlan, List.foldl_cons, hda]
    rw [hstep, ih (fun x hx => hdir x (List.mem_cons_of_mem a hx))]
    simp

/-- C4 (corrected): for a plan made of forward actions only (in
particular any plan computed with the target at or above the current
version), over a catalog whose forward texts all load, applying the plan
to the applied set and replanning with the same target yields the empty
plan.  The original unrestricted claim fails for backward plans, see the
counterexample. -/
theorem C4_forward_idempotent
    (provList : List Migration) (dbList : List Int) (target : Int) (acts : List Action)
    (hup : ∀ m ∈ provList, ∃ s, m.up = Except.ok s)
    (h : plan provList dbList target = Except.ok acts)
    (hdir : ∀ a ∈ acts, a.direction = Direction.up) :
    plan provList (applyPlan dbList acts) target = Except.ok [] := by
  by_cases hacts : acts = []
  · subst hacts
    exact h
  · have hex : ∃ a ∈ acts, a.direction = Direction.up := by
      cases acts with
      | nil => exact absurd rfl hacts
      | cons a rest => exact ⟨a, List.mem_cons_self a rest, hdir a (List.mem_cons_self a rest)⟩
    obtain ⟨hlt, hplanUp⟩ := plan_forward_acts h hex
    have hne : provList ≠ [] := by
      intro hnil
      subst hnil
      unfold plan at h
      rw [if_pos rfl] at h
      cases h
      exact hacts rfl
    have happly : applyPlan dbList acts = dbList ++ acts.map Action.version :=
      applyPlan_all_up hdir
    have hbound : ∀ x ∈ applyPlan dbList acts, x ≤ target := by
      intro x hx
      rw [happly] at hx
      rcases List.mem_append.mp hx with hx' | hx'
      · have := le_planLatest hx'
        omega
      · obtain ⟨a, ha, hav⟩ := List.mem_map.mp hx'
        have := planUp_le_target hplanUp (by intro q hq; cases hq) a ha
        omega
    have hnewne : applyPlan dbList acts ≠ [] := by
      rw [happly]
      cases acts with
      | nil => exact absurd rfl hacts
      | cons a rest => simp
    have hlat2 : planLatest (applyPlan dbList acts) ≤ target :=
      hbound _ (planLatest_mem hnewne)
    rcases eq_or_lt_of_le hlat2 with heq | hlt2
    · exact plan_eq_empty heq.symm
    · rw [plan_eq_planUp hne hlt2]
      have hmemD2 : ∀ w : Int, w ∈ sortInts (applyPlan dbList acts) ↔
          (w ∈ dbList ∨ ∃ a ∈ acts, a.version = w) := by
        intro w
        rw [mem_sortInts, happly, List.mem_append]
        constructor
        · rintro (h1 | h1)
          · exact Or.inl h1
          · obtain ⟨a, ha, hav⟩ := List.mem_map.mp h1
            exact Or.inr ⟨a, ha, hav⟩
        · rintro (h1 | h1)
          · exact Or.inl h1
          · obtain ⟨a, ha, hav⟩ := h1
            exact Or.inr (List.mem_map.mpr ⟨a, ha, hav⟩)
      apply planUp_all_covered
      · exact sortMigrations_pairwise provList
      · intro l1 pm rest2 heq hle hnm
        rw [hmemD2] at hnm
        have hnm1 : pm.version ∉ sortInts dbList :=
          fun hc => (not_or.mp hnm).1 (mem_sortInts.mp hc)
        have hnoact : ∀ a ∈ acts, a.version ≠ pm.version := by
          intro a ha hav
          exact (not_or.mp hnm).2 ⟨a, ha, hav⟩
        obtain ⟨m', hm', hle', htrig⟩ :=
          planUp_skipped_trigger l1 pm rest2 (heq ▸ hplanUp)
            (heq ▸ sortMigrations_pairwise provList) hle hnm1 hnoact
        refine ⟨m', hm', hle', ?_⟩
        rw [hmemD2]
        rcases htrig with h1 | h1
        · exact Or.inl (mem_sortInts.mp h1)
        · exact Or.inr h1
      · intro m hm _ _
        exact hup m (mem_sortMigrations.mp hm)
      · exact Or.inl rfl

/-- C4 counterexample to the original claim: catalog {1,2,3}, applied
{1,3}, target 2.  The plan is `[(3, down3, down)]`; applying it leaves
{1}, and replanning with target 2 yields `[(2, up2, up)]`, not the empty
plan. -/
theorem C4_counterexample :
    plan cat123 [1, 3] 2 = Except.ok [⟨3, "down3", Direction.down⟩]
    ∧ applyPlan [1, 3] [⟨3, "down3", Direction.down⟩] = [1]
    ∧ plan cat123 [1] 2 = Except.ok [⟨2, "up2", Direction.up⟩]
    ∧ [(⟨2, "up2", Direction.up⟩ : Action)] ≠ [] := by
  refine ⟨by decide, by decide, by decide, by decide⟩

/-- C4 witness: replanning after applying the forward plan of
catalog {1, 2} from the empty applied state to target 2 is empty. -/
theorem C4_witness :
    plan basicCat
        (applyPlan [] [⟨1, "up1", Direction.up⟩, ⟨2, "up2", Direction.up⟩]) 2 =
      Except.ok [] :=
  C4_forward_idempotent basicCat [] 2
    [⟨1, "up1", Direction.up⟩, ⟨2, "up2", Direction.up⟩]
    (by
      intro m hm
      simp only [basicCat, mig, List.mem_cons, List.not_mem_nil, or_false] at hm
      rcases hm with rfl | rfl
      · exact ⟨"up1", rfl⟩
      · exact ⟨"up2", rfl⟩)
    (by decide) (by decide)

/-! ## Claim C5 -/

/-- Splitting a `SQLDatabase.Migrate` run at a list boundary. -/
theorem sqlMigrate_append {σ : Type} (exec : σ → String → Except String σ) :
    ∀ (l1 l2 : List Action) (st : DBState σ),
      sqlMigrate exec st (l1 ++ l2) =
        match sqlMigrate exec st l1 with
        | (st1, none) => sqlMigrate exec st1 l2
        | (st1, some e) => (st1, some e) := by
  intro l1
  induction l1 with
  | nil => intro l2 st; rfl
  | cons a l1' ih =>
    intro l2 st
    simp only [List.cons_append, sqlMigrate]
    cases hstep : (match a.direction with
                   | Direction.up => runUp exec st a
                   | Direction.down => runDown exec st a) with
    | error e => rfl
    | ok st2 => exact ih l2 st2

/-- C5 (confirmed): the executor applies actions strictly in order and
halts at the first failing atomic unit: if the actions before it all
succeeded, producing state `st2`, and the next action's statement fails,
the run of the whole plan returns exactly `st2` with the error — the
earlier effects stay committed, the failing unit leaves no effect, and
the result does not depend on the remaining actions, which are never
attempted. -/
theorem C5_halt_on_first_failure {σ : Type} (exec : σ → String → Except String σ)
    (st st2 : DBState σ) (pre : List Action) (a : Action) (rest : List Action)
    (e : String)
    (h1 : sqlMigrate exec st pre = (st2, none))
    (h2 : exec st2.backend a.migration = Except.error e) :
    sqlMigrate exec st (pre ++ a :: rest) = (st2, some e) := by
  rw [sqlMigrate_append, h1]
  show sqlMigrate exec st2 (a :: rest) = (st2, some e)
  cases hd : a.direction with
  | up =>
    simp only [sqlMigrate, hd, runUp, h2]
  | down =>
    simp only [sqlMigrate, hd, runDown, h2]

/-- C5 witness: three forward actions where the second fails; exactly the
first action's effects (statement `S1` executed, version 1 recorded) are
committed, the error is surfaced, and the third action is not attempted. -/
theorem C5_witness :
    sqlMigrate execLog ⟨[], []⟩
        [⟨1, "S1", Direction.up⟩, ⟨2, "BOOM", Direction.up⟩, ⟨3, "S3", Direction.up⟩] =
      (⟨["S1"], [1]⟩, some "boom") :=
  C5_halt_on_first_failure execLog ⟨[], []⟩ ⟨["S1"], [1]⟩
    [⟨1, "S1", Direction.up⟩] ⟨2, "BOOM", Direction.up⟩ [⟨3, "S3", Direction.up⟩]
    "boom" rfl rfl

/-! ## Claim C6 -/

theorem foldl_max_ge_init :
    ∀ (l : List Int) (a : Int), a ≤ l.foldl (fun x v => if x < v then v else x) a := by
  intro l
  induction l with
  | nil => intro a; exact le_refl a
  | cons b t ih =>
    intro a
    refine le_trans ?_ (ih (if a < b then b else a))
    by_cases hab : a < b
    · rw [if_pos hab]; omega
    · rw [if_neg hab]

theorem foldl_max_ge_mem :
    ∀ (l : List Int) (a : Int), ∀ x ∈ l, x ≤ l.foldl (fun x v => if x < v then v else x) a := by
  intro l
  induction l with
  | nil => intro a x hx; cases hx
  | cons b t ih =>
    intro a x hx
    rcases List.mem_cons.mp hx with rfl | hx'
    · refine le_trans ?_ (foldl_max_ge_init t (if a < x then x else a))
      by_cases hab : a < x
      · rw [if_pos hab]
      · rw [if_neg hab]; omega
    · exact ih (if a < b then b else a) x hx'

theorem foldl_max_mem_or :
    ∀ (l : List Int) (a : Int),
      l.foldl (fun x v => if x < v then v else x) a = a ∨
        l.foldl (fun x v => if x < v then v else x) a ∈ l := by
  intro l
  induction l with
  | nil => intro a; exact Or.inl rfl
  | cons b t ih =>
    intro a
    rcases ih (if a < b then b else a) with heq | hmem
    · rw [List.foldl_cons, heq]
      by_cases hab : a < b
      · rw [if_pos hab]; exact Or.inr (List.mem_cons_self b t)
      · rw [if_neg hab]; exact Or.inl rfl
    · exact Or.inr (List.mem_cons_of_mem b hmem)

/-- Under the data-model invariant that applied versions are at least 1,
`CurrentVersion`'s running maximum agrees with the `latest` local
computed inside `plan`. -/
theorem currentVersion_eq_planLatest {dbList : List Int}
    (hpos : ∀ v ∈ dbList, 1 ≤ v) :
    currentVersion dbList = planLatest dbList := by
  cases hdb : dbList with
  | nil => rfl
  | cons v rest =>
    have hne : dbList ≠ [] := by rw [hdb]; intro h; cases h
    rw [← hdb]
    apply le_antisymm
    · rcases foldl_max_mem_or dbList 0 with heq | hmem
      · unfold currentVersion
        rw [heq]
        have := hpos _ (planLatest_mem hne)
        omega
      · exact le_planLatest hmem
    · exact foldl_max_ge_mem dbList 0 _ (planLatest_mem hne)

/-- C6 (confirmed): with applied versions at least 1 (the data-model
invariant), planning towards the current version returns the empty
plan, for every catalog. -/
theorem C6_plan_to_current_is_empty
    (provList : List Migration) (dbList : List Int)
    (hpos : ∀ v ∈ dbList, 1 ≤ v) :
    plan provList dbList (currentVersion dbList) = Except.ok [] :=
  plan_eq_empty (currentVersion_eq_planLatest hpos)

/-- C6 witness: catalog {1, 2}, applied {1}, target `currentVersion [1] = 1`. -/
theorem C6_witness : plan basicCat [1] (currentVersion [1]) = Except.ok [] :=
  C6_plan_to_current_is_empty basicCat [1] (by decide)

/-! ## Claim C7 -/

theorem latestVersion_eq {provList : List Migration} :
    latestVersion provList = currentVersion (provList.map Migration.version) := by
  unfold latestVersion currentVersion
  rw [List.foldl_map]

theorem version_le_latestVersion {provList : List Migration} {m : Migration}
    (hm : m ∈ provList) : m.version ≤ latestVersion provList := by
  rw [latestVersion_eq]
  exact foldl_max_ge_mem _ 0 m.version (List.mem_map.mpr ⟨m, hm, rfl⟩)

/-- C7 (confirmed): over a catalog whose payloads all load, planning
never fails for any target and every planned action's version stays
within the highest catalog version — a target beyond the catalog
saturates instead of erroring; in particular, for catalog {1, 2}, empty
applied state and target 3, the plan is
`[(1, up1, up), (2, up2, up)]`. -/
theorem C7_target_saturates
    (provList : List Migration) (dbList : List Int) (target : Int)
    (htot : ∀ m ∈ provList,
      (∃ s, m.up = Except.ok s) ∧ (∃ s, m.down = Except.ok s) ∧
        (∃ s, m.snapshot = Except.ok s)) :
    (∃ acts, plan provList dbList target = Except.ok acts ∧
      ∀ a ∈ acts, a.version ≤ latestVersion provList)
    ∧ plan basicCat [] 3 =
        Except.ok [⟨1, "up1", Direction.up⟩, ⟨2, "up2", Direction.up⟩] := by
  constructor
  · by_cases hne : provList = []
    · subst hne
      refine ⟨[], ?_, by intro a ha; cases ha⟩
      unfold plan
      rw [if_pos rfl]
    · rcases lt_trichotomy (planLatest dbList) target with hlt | heq | hgt
      · rw [plan_eq_planUp hne hlt]
        obtain ⟨acts, hacts⟩ := planUp_total []
          (fun m hm => ⟨(htot m (mem_sortMigrations.mp hm)).1,
            (htot m (mem_sortMigrations.mp hm)).2.2⟩)
        refine ⟨acts, hacts, ?_⟩
        intro a ha
        rcases planUp_version_mem hacts a ha with ⟨m, hm, hv⟩ | hmem
        · rw [hv]
          exact version_le_latestVersion (mem_sortMigrations.mp hm)
        · cases hmem
      · rw [plan_eq_empty heq.symm]
        exact ⟨[], rfl, by intro a ha; cases ha⟩
      · rw [plan_eq_planDown hne hgt]
        obtain ⟨acts, hacts⟩ := planDown_total []
          (fun m hm => (htot m (mem_sortMigrations.mp hm)).2.1)
        refine ⟨acts, hacts, ?_⟩
        intro a ha
        rcases planDown_version_mem hacts a ha with ⟨_, m, hm, hv⟩ | hmem
        · rw [← hv]
          exact version_le_latestVersion (mem_sortMigrations.mp hm)
        · cases hmem
  · decide

/-- C7 witness: catalog {1, 2} with total payloads, target 5. -/
theorem C7_witness :
    ∃ acts, plan basicCat [] 5 = Except.ok acts ∧
      ∀ a ∈ acts, a.version ≤ latestVersion basicCat :=
  (C7_target_saturates basicCat [] 5
    (by
      intro m hm
      simp only [basicCat, mig, List.mem_cons, List.not_mem_nil, or_false] at hm
      rcases hm with rfl | rfl
      · exact ⟨⟨"up1", rfl⟩, ⟨"down1", rfl⟩, ⟨"", rfl⟩⟩
      · exact ⟨⟨"up2", rfl⟩, ⟨"down2", rfl⟩, ⟨"", rfl⟩⟩)).1

/-! ## Claim C8 -/

theorem sortInts_ne_nil {l : List Int} (h : l ≠ []) : sortInts l ≠ [] := by
  intro hnil
  apply h
  have hp := sortInts_perm l
  rw [hnil] at hp
  exact hp.nil_eq.symm

/-- C8 (confirmed): a payload-resolution failure on any migration
reached during planning is fatal: (1) in a forward walk over a
non-empty applied set, an unapplied catalog migration within the target
whose forward text fails; (2) in a forward walk from an empty applied
state, a catalog migration within the target whose snapshot fails;
(3) in a backward walk, an applied version above the target whose
catalog entries' backward texts fail; (4) in a forward walk from an
empty applied state, a catalog migration within the target whose
snapshot is empty (so its forward text is loaded) and whose forward
text fails.  In each case `plan` returns an error (and, returning
through `Except`, no action list is produced alongside it). -/
theorem C8_payload_error_is_fatal :
    (∀ (provList : List Migration) (dbList : List Int) (target : Int)
        (m : Migration) (e : String),
      m ∈ provList → m.version ≤ target → planLatest dbList < target →
      dbList ≠ [] → m.version ∉ dbList → m.up = Except.error e →
      ∃ err, plan provList dbList target = Except.error err)
    ∧ (∀ (provList : List Migration) (target : Int) (m : Migration) (e : String),
      m ∈ provList → m.version ≤ target → 0 < target →
      m.snapshot = Except.error e →
      ∃ err, plan provList [] target = Except.error err)
    ∧ (∀ (provList : List Migration) (dbList : List Int) (target v : Int),
      v ∈ dbList → target < v → (∃ m ∈ provList, m.version = v) →
      (∀ m ∈ provList, m.version = v → ∃ e, m.down = Except.error e) →
      ∃ err, plan provList dbList target = Except.error err)
    ∧ (∀ (provList : List Migration) (target : Int) (m : Migration) (s e : String),
      m ∈ provList → m.version ≤ target → 0 < target →
      m.snapshot = Except.ok s → ¬ 0 < s.length → m.up = Except.error e →
      ∃ err, plan provList [] target = Except.error err) := by
  refine ⟨?_, ?_, ?_, ?_⟩
  · intro provList dbList target m e hm hle hlt hdbne hnmem herr
    have hne : provList ≠ [] := by
      intro h0
      rw [h0] at hm
      cases hm
    rw [plan_eq_planUp hne hlt]
    apply except_error_of_not_ok
    intro acts hok
    exact absurd hok (fun hok' => planUp_up_error_no_ok hok'
      (sortMigrations_pairwise provList) (mem_sortMigrations.mpr hm) hle
      (fun hc => hnmem (mem_sortInts.mp hc)) (sortInts_ne_nil hdbne) herr)
  · intro provList target m e hm hle htpos herr
    have hne : provList ≠ [] := by
      intro h0
      rw [h0] at hm
      cases hm
    have hlt : planLatest [] < target := by
      show ((sortInts []).getLast?).getD 0 < target
      exact htpos
    rw [plan_eq_planUp hne hlt]
    apply except_error_of_not_ok
    intro acts hok
    exact absurd hok (fun hok' => planUp_snapshot_error_no_ok hok'
      (sortMigrations_pairwise provList) (mem_sortMigrations.mpr hm) hle herr)
  · intro provList dbList target v hv htv hex herr
    have hne : provList ≠ [] := by
      obtain ⟨m, hm, _⟩ := hex
      intro h0
      rw [h0] at hm
      cases hm
    have hgt : target < planLatest dbList := lt_of_lt_of_le htv (le_planLatest hv)
    rw [plan_eq_planDown hne hgt]
    apply except_error_of_not_ok
    intro acts hok
    refine absurd hok (fun hok' => planDown_down_error_no_ok hok' ?_ ?_ htv ?_ ?_)
    · exact List.pairwise_reverse.mpr ((sortInts_pairwise dbList).imp (fun hab => hab))
    · exact List.mem_reverse.mpr (mem_sortInts.mpr hv)
    · obtain ⟨m, hm, hmv⟩ := hex
      exact ⟨m, mem_sortMigrations.mpr hm, hmv⟩
    · intro m hm hmv
      exact herr m (mem_sortMigrations.mp hm) hmv
  · intro provList target m s e hm hle htpos hsnap0 hslen herr
    have hne : provList ≠ [] := by
      intro h0
      rw [h0] at hm
      cases hm
    have hlt : planLatest [] < target := by
      show ((sortInts []).getLast?).getD 0 < target
      exact htpos
    rw [plan_eq_planUp hne hlt]
    apply except_error_of_not_ok
    intro acts hok
    exact absurd hok (fun hok' => planUp_up_error_empty_db_no_ok hok'
      (sortMigrations_pairwise provList) (mem_sortMigrations.mpr hm) hle
      hsnap0 hslen herr)

/-- C8 witness: a one-migration catalog whose forward text fails to
load, applied state {5}, target 6: planning fails. -/
theorem C8_witness :
    ∃ err, plan [⟨1, Except.error "boom", Except.ok "", Except.ok ""⟩] [5] 6 =
      Except.error err :=
  C8_payload_error_is_fatal.1 [⟨1, Except.error "boom", Except.ok "", Except.ok ""⟩]
    [5] 6 ⟨1, Except.error "boom", Except.ok "", Except.ok ""⟩ "boom"
    (by decide) (by decide) (by decide) (by decide) (by decide) rfl

/-! ## Claim C9 -/

theorem splitOnChar_of_not_mem {c : Char} :
    ∀ {l : List Char}, c ∉ l → splitOnChar c l = [l] := by
  intro l
  induction l with
  | nil => intro _; rfl
  | cons x xs ih =>
    intro hmem
    have hx : ¬ x = c := fun h => hmem (h ▸ List.mem_cons_self x xs)
    have hxs : c ∉ xs := fun h => hmem (List.mem_cons_of_mem x h)
    simp only [splitOnChar, if_neg hx, ih hxs]

theorem splitOnChar_append {c : Char} :
    ∀ {l1 l2 : List Char}, c ∉ l1 →
      splitOnChar c (l1 ++ c :: l2) = l1 :: splitOnChar c l2 := by
  intro l1
  induction l1 with
  | nil => intro l2 _; simp [splitOnChar]
  | cons x xs ih =>
    intro l2 hmem
    have hx : ¬ x = c := fun h => hmem (h ▸ List.mem_cons_self x xs)
    have hxs : c ∉ xs := fun h => hmem (List.mem_cons_of_mem x h)
    simp only [List.cons_append, splitOnChar, if_neg hx, List.append_eq, ih hxs]

theorem takeWhile_all {p : Char → Bool} :
    ∀ {l : List Char}, (∀ x ∈ l, p x = true) → l.takeWhile p = l := by
  intro l
  induction l with
  | nil => intro _; rfl
  | cons x xs ih =>
    intro hall
    rw [List.takeWhile_cons_of_pos (hall x (List.mem_cons_self x xs))]
    rw [ih (fun y hy => hall y (List.mem_cons_of_mem x hy))]

theorem takeWhile_append_stop {p : Char → Bool} {c : Char} :
    ∀ {l1 l2 : List Char}, (∀ x ∈ l1, p x = true) → p c = false →
      (l1 ++ c :: l2).takeWhile p = l1 := by
  intro l1
  induction l1 with
  | nil =>
    intro l2 _ hc
    rw [List.nil_append, List.takeWhile_cons_of_neg (by rw [hc]; exact Bool.false_ne_true)]
  | cons x xs ih =>
    intro l2 hall hc
    rw [List.cons_append, List.takeWhile_cons_of_pos (hall x (List.mem_cons_self x xs))]
    rw [ih (fun y hy => hall y (List.mem_cons_of_mem x hy)) hc]

theorem atoiChars_digits {l : List Char} (hne : l ≠ [])
    (hdig : l.all Char.isDigit = true) :
    atoiChars l = some ((digitsVal l : Int)) := by
  cases l with
  | nil => exact absurd rfl hne
  | cons c rest =>
    have hcd : c.isDigit = true :=
      List.all_eq_true.mp hdig c (List.mem_cons_self c rest)
    have hc1 : ¬ c = '-' := by
      intro h
      rw [h] at hcd
      exact absurd hcd (by decide)
    have hc2 : ¬ c = '+' := by
      intro h
      rw [h] at hcd
      exact absurd hcd (by decide)
    simp only [atoiChars, if_neg hc1, if_neg hc2, if_pos hdig]

theorem listMigrations_error_of_bad :
    ∀ {entries : List DirEntry} {e : DirEntry},
      e ∈ entries → e.isDir = false → parseFileName e.name = none →
      ∃ err, listMigrations entries = Except.error err := by
  intro entries
  induction entries with
  | nil => intro e hmem _ _; cases hmem
  | cons x rest ih =>
    intro e hmem hdir hparse
    by_cases hx : x.isDir = true
    · have hrest : e ∈ rest := by
        rcases List.mem_cons.mp hmem with rfl | h
        · rw [hx] at hdir; cases hdir
        · exact h
      obtain ⟨err, herr⟩ := ih hrest hdir hparse
      exact ⟨err, by simp only [listMigrations, if_pos hx]; exact herr⟩
    · cases hpx : parseFileName x.name with
      | none =>
        exact ⟨"invalid file name", by simp only [listMigrations, if_neg hx, hpx]⟩
      | some v =>
        have hrest : e ∈ rest := by
          rcases List.mem_cons.mp hmem with rfl | h
          · rw [hpx] at hparse; cases hparse
          · exact h
        obtain ⟨err, herr⟩ := ih hrest hdir hparse
        exact ⟨err, by simp only [listMigrations, if_neg hx, hpx, herr]⟩

theorem listMigrations_ok_of_all_good :
    ∀ {entries : List DirEntry},
      (∀ e ∈ entries, e.isDir = false → ∃ v, parseFileName e.name = some v) →
      ∃ ms, listMigrations entries = Except.ok ms ∧
        ∀ p ∈ ms, parseFileName p.1 = some p.2 := by
  intro entries
  induction entries with
  | nil => intro _; exact ⟨[], rfl, by intro p hp; cases hp⟩
  | cons x rest ih =>
    intro hgood
    obtain ⟨ms, hms, hall⟩ :=
      ih (fun e he hd => hgood e (List.mem_cons_of_mem x he) hd)
    by_cases hx : x.isDir = true
    · exact ⟨ms, by simp only [listMigrations, if_pos hx]; exact hms, hall⟩
    · obtain ⟨v, hv⟩ := hgood x (List.mem_cons_self x rest)
        (Bool.eq_false_iff.mpr hx)
      refine ⟨(x.name, v) :: ms, ?_, ?_⟩
      · simp only [listMigrations, if_neg hx, hv, hms]
      · intro p hp
        rcases List.mem_cons.mp hp with rfl | h
        · exact hv
        · exact hall p h

theorem splitOnChar_ne_nil {c : Char} : ∀ {l : List Char}, splitOnChar c l ≠ [] := by
  intro l
  induction l with
  | nil => intro h; exact List.noConfusion h
  | cons x xs _ =>
    intro h
    simp only [splitOnChar] at h
    by_cases hx : x = c
    · rw [if_pos hx] at h
      exact List.noConfusion h
    · rw [if_neg hx] at h
      cases hrec : splitOnChar c xs with
      | nil => simp only [hrec] at h; exact List.noConfusion h
      | cons g gs => simp only [hrec] at h; exact List.noConfusion h

theorem splitOnChar_eq_single {c : Char} :
    ∀ {l t : List Char}, splitOnChar c l = [t] → l = t ∧ c ∉ t := by
  intro l
  induction l with
  | nil =>
    intro t h
    injection h with h1 _
    refine ⟨h1, ?_⟩
    rw [← h1]
    intro hc
    cases hc
  | cons x xs ih =>
    intro t h
    simp only [splitOnChar] at h
    by_cases hx : x = c
    · rw [if_pos hx] at h
      injection h with _ h2
      exact absurd h2 splitOnChar_ne_nil
    · rw [if_neg hx] at h
      cases hrec : splitOnChar c xs with
      | nil => exact absurd hrec splitOnChar_ne_nil
      | cons g gs =>
        simp only [hrec] at h
        injection h with h1 h2
        subst h2
        obtain ⟨hxs, hg⟩ := ih hrec
        refine ⟨by rw [← h1, hxs], ?_⟩
        rw [← h1]
        intro hmem
        rcases List.mem_cons.mp hmem with h3 | h3
        · exact hx h3.symm
        · exact hg h3

theorem splitOnChar_eq_pair {c : Char} :
    ∀ {l s t : List Char}, splitOnChar c l = [s, t] →
      l = s ++ c :: t ∧ c ∉ s ∧ c ∉ t := by
  intro l
  induction l with
  | nil =>
    intro s t h
    injection h with _ h2
    exact absurd h2 List.noConfusion
  | cons x xs ih =>
    intro s t h
    simp only [splitOnChar] at h
    by_cases hx : x = c
    · rw [if_pos hx] at h
      injection h with h1 h2
      obtain ⟨hxs, ht⟩ := splitOnChar_eq_single h2
      subst hx
      refine ⟨?_, ?_, ht⟩
      · rw [← h1, List.nil_append, hxs]
      · rw [← h1]
        intro hc
        cases hc
    · rw [if_neg hx] at h
      cases hrec : splitOnChar c xs with
      | nil => exact absurd hrec splitOnChar_ne_nil
      | cons g gs =>
        simp only [hrec] at h
        injection h with h1 h2
        subst h2
        obtain ⟨hxs, hg, ht⟩ := ih hrec
        refine ⟨?_, ?_, ht⟩
        · rw [← h1, List.cons_append, hxs]
        · rw [← h1]
          intro hmem
          rcases List.mem_cons.mp hmem with h3 | h3
          · exact hx h3.symm
          · exact hg h3

theorem dropWhile_head_false {p : Char → Bool} :
    ∀ {l : List Char} {d : Char} {ds : List Char},
      l.dropWhile p = d :: ds → p d = false := by
  intro l
  induction l with
  | nil => intro d ds h; exact List.noConfusion h
  | cons x xs ih =>
    intro d ds h
    rw [List.dropWhile_cons] at h
    by_cases hx : p x = true
    · rw [if_pos hx] at h
      exact ih h
    · rw [if_neg hx] at h
      injection h with h1 _
      rw [← h1]
      exact Bool.eq_false_iff.mpr hx

/-- Soundness of `strconv.Atoi` with respect to its spec-side domain. -/
theorem atoiChars_intLiteral :
    ∀ {l : List Char} {v : Int}, intLiteral l v → atoiChars l = some v := by
  intro l v h
  rcases h with ⟨hall, hne, rfl⟩ | ⟨ds, rfl, hall, hne, rfl⟩ | ⟨ds, rfl, hall, hne, rfl⟩
  · exact atoiChars_digits hne hall
  · simp [atoiChars, hne, hall]
  · simp [atoiChars, hne, hall]

/-- Completeness of `strconv.Atoi` with respect to its spec-side domain. -/
theorem atoiChars_some_intLiteral :
    ∀ {l : List Char} {v : Int}, atoiChars l = some v → intLiteral l v := by
  intro l v h
  cases l with
  | nil => exact Option.noConfusion h
  | cons c rest =>
    by_cases h1 : c = '-'
    · subst h1
      simp only [atoiChars, if_pos rfl] at h
      by_cases h2 : rest ≠ [] ∧ rest.all Char.isDigit = true
      · rw [if_pos h2] at h
        injection h with h
        exact Or.inr (Or.inr ⟨rest, rfl, h2.2, h2.1, h.symm⟩)
      · rw [if_neg h2] at h
        exact Option.noConfusion h
    · by_cases h2 : c = '+'
      · subst h2
        simp only [atoiChars, if_neg h1, if_pos rfl] at h
        by_cases h3 : rest ≠ [] ∧ rest.all Char.isDigit = true
        · rw [if_pos h3] at h
          injection h with h
          exact Or.inr (Or.inl ⟨rest, rfl, h3.2, h3.1, h.symm⟩)
        · rw [if_neg h3] at h
          exact Option.noConfusion h
      · simp only [atoiChars, if_neg h1, if_neg h2] at h
        by_cases h3 : (c :: rest).all Char.isDigit = true
        · rw [if_pos h3] at h
          injection h with h
          exact Or.inl ⟨h3, List.cons_ne_nil c rest, h.symm⟩
        · rw [if_neg h3] at h
          exact Option.noConfusion h

/-- An integer literal contains neither a dot nor an underscore. -/
theorem intLiteral_not_mem {l : List Char} {v : Int} (h : intLiteral l v) :
    '.' ∉ l ∧ '_' ∉ l := by
  have hchars : ∀ x ∈ l, x.isDigit = true ∨ x = '+' ∨ x = '-' := by
    rcases h with ⟨hall, _, _⟩ | ⟨ds, rfl, hall, _, _⟩ | ⟨ds, rfl, hall, _, _⟩
    · intro x hx
      exact Or.inl (List.all_eq_true.mp hall x hx)
    · intro x hx
      rcases List.mem_cons.mp hx with rfl | hx'
      · exact Or.inr (Or.inl rfl)
      · exact Or.inl (List.all_eq_true.mp hall x hx')
    · intro x hx
      rcases List.mem_cons.mp hx with rfl | hx'
      · exact Or.inr (Or.inr rfl)
      · exact Or.inl (List.all_eq_true.mp hall x hx')
  constructor
  · intro hmem
    rcases hchars _ hmem with hd | h1 | h1
    · exact absurd hd (by decide)
    · exact absurd h1 (by decide)
    · exact absurd h1 (by decide)
  · intro hmem
    rcases hchars _ hmem with hd | h1 | h1
    · exact absurd hd (by decide)
    · exact absurd h1 (by decide)
    · exact absurd h1 (by decide)

/-- The adapter accepts exactly the conforming names: `parseFileName`
yields version `v` precisely for names of the amended convention. -/
theorem parseFileName_some_iff {name : List Char} {v : Int} :
    parseFileName name = some v ↔ fileNameConvention name v := by
  constructor
  · intro h
    unfold parseFileName at h
    cases hsplit : splitOnChar '.' name with
    | nil => exact absurd hsplit splitOnChar_ne_nil
    | cons stem rest1 =>
      cases rest1 with
      | nil =>
        simp only [hsplit] at h
        exact Option.noConfusion h
      | cons ext rest2 =>
        cases rest2 with
        | nil =>
          simp only [hsplit] at h
          by_cases hext : ext = "sql".toList
          · rw [if_pos hext] at h
            subst hext
            obtain ⟨hname, hdotstem, _⟩ := splitOnChar_eq_pair hsplit
            have hlit : intLiteral (stem.takeWhile (fun c => decide (c ≠ '_'))) v :=
              atoiChars_some_intLiteral h
            have hdecomp0 := List.takeWhile_append_dropWhile
              (fun c => decide (c ≠ '_')) stem
            cases hdrop : stem.dropWhile (fun c => decide (c ≠ '_')) with
            | nil =>
              have hstem : stem.takeWhile (fun c => decide (c ≠ '_')) = stem := by
                rw [hdrop, List.append_nil] at hdecomp0
                exact hdecomp0
              refine ⟨stem.takeWhile (fun c => decide (c ≠ '_')), [],
                Or.inl ?_, hlit, by intro hc; cases hc⟩
              rw [hname, hstem]
            | cons d ds =>
              have hd : (fun c => decide (c ≠ '_')) d = false :=
                dropWhile_head_false hdrop
              have hdu : d = '_' := not_not.mp (of_decide_eq_false hd)
              have hdecomp : stem.takeWhile (fun c => decide (c ≠ '_')) ++ '_' :: ds =
                  stem := by
                rw [hdrop, hdu] at hdecomp0
                exact hdecomp0
              have hds_nodot : '.' ∉ ds := by
                intro hmem
                apply hdotstem
                rw [← hdecomp]
                exact List.mem_append.mpr (Or.inr (List.mem_cons_of_mem _ hmem))
              refine ⟨stem.takeWhile (fun c => decide (c ≠ '_')), ds,
                Or.inr ?_, hlit, hds_nodot⟩
              rw [hname, hdecomp]
          · rw [if_neg hext] at h
            exact Option.noConfusion h
        | cons y rest3 =>
          simp only [hsplit] at h
          exact Option.noConfusion h
  · rintro ⟨intPart, lbl, hshape, hlit, hlbl⟩
    have hnod : '.' ∉ intPart := (intLiteral_not_mem hlit).1
    have hnou : '_' ∉ intPart := (intLiteral_not_mem hlit).2
    have hsql_nodot : '.' ∉ ("sql".toList : List Char) := by decide
    have hallp : ∀ x ∈ intPart, (fun c => decide (c ≠ '_')) x = true := by
      intro x hx
      apply decide_eq_true
      intro hc
      exact hnou (hc ▸ hx)
    have hatoi : atoiChars intPart = some v := atoiChars_intLiteral hlit
    rcases hshape with rfl | rfl
    · unfold parseFileName
      rw [splitOnChar_append hnod, splitOnChar_of_not_mem hsql_nodot]
      show (if "sql".toList = "sql".toList then
        atoiChars (intPart.takeWhile (fun c => decide (c ≠ '_'))) else none) = some v
      rw [if_pos rfl, takeWhile_all hallp]
      exact hatoi
    · have hstem_nodot : '.' ∉ (intPart ++ '_' :: lbl) := by
        intro hmem
        rcases List.mem_append.mp hmem with h1 | h1
        · exact hnod h1
        · rcases List.mem_cons.mp h1 with h2 | h2
          · exact absurd h2 (by decide)
          · exact hlbl h2
      unfold parseFileName
      rw [splitOnChar_append hstem_nodot, splitOnChar_of_not_mem hsql_nodot]
      show (if "sql".toList = "sql".toList then
        atoiChars ((intPart ++ '_' :: lbl).takeWhile (fun c => decide (c ≠ '_'))) else
          none) = some v
      rw [if_pos rfl, takeWhile_append_stop hallp (by decide)]
      exact hatoi

/-- C9 (corrected): the file-based adapter accepts exactly names of the
shape `<integer>[_<label>].sql` — the extension must be `sql` (not an
arbitrary `<ext>`), the name must contain exactly one dot, and the part
before the first underscore must be `strconv.Atoi`-parseable — and the
migration it yields carries that integer as its version.  Parsing
succeeds precisely on the conforming names (`fileNameConvention`), so
every non-conforming name is rejected — for example `1.2.sql` and
`abc.sql` below; a rejected file name makes listing fail with an error
and no partial catalog, and when every file conforms the whole catalog
is produced with each file's parsed version. -/
theorem C9_filename_convention (num lbl : List Char)
    (hne : num ≠ []) (hdig : num.all Char.isDigit = true) (hlbl : '.' ∉ lbl) :
    parseFileName ((num ++ '_' :: lbl) ++ '.' :: "sql".toList) =
      some ((digitsVal num : Int))
    ∧ parseFileName (num ++ '.' :: "sql".toList) = some ((digitsVal num : Int))
    ∧ (∀ (entries : List DirEntry) (e : DirEntry),
        e ∈ entries → e.isDir = false → parseFileName e.name = none →
        ∃ err, listMigrations entries = Except.error err)
    ∧ (∀ entries : List DirEntry,
        (∀ e ∈ entries, e.isDir = false → ∃ v, parseFileName e.name = some v) →
        ∃ ms, listMigrations entries = Except.ok ms ∧
          ∀ p ∈ ms, parseFileName p.1 = some p.2)
    ∧ (∀ (name : List Char) (v : Int),
        parseFileName name = some v ↔ fileNameConvention name v)
    ∧ parseFileName ("1.2.sql".toList) = none
    ∧ parseFileName ("abc.sql".toList) = none := by
  have hnum_nodot : '.' ∉ num := by
    intro hmem
    have := List.all_eq_true.mp hdig _ hmem
    exact absurd this (by decide)
  have hnum_digit_ne : ∀ x ∈ num, (fun c => decide (¬ c = '_')) x = true := by
    intro x hx
    have hxd := List.all_eq_true.mp hdig x hx
    apply decide_eq_true
    intro h
    rw [h] at hxd
    exact absurd hxd (by decide)
  have hsql_nodot : '.' ∉ ("sql".toList : List Char) := by decide
  refine ⟨?_, ?_, fun entries e => @listMigrations_error_of_bad entries e,
    fun entries => @listMigrations_ok_of_all_good entries,
    fun name v => parseFileName_some_iff, by decide, by decide⟩
  · have hstem_nodot : '.' ∉ (num ++ '_' :: lbl) := by
      intro hmem
      rcases List.mem_append.mp hmem with h | h
      · exact hnum_nodot h
      · rcases List.mem_cons.mp h with h' | h'
        · exact absurd h' (by decide)
        · exact hlbl h'
    unfold parseFileName
    rw [splitOnChar_append hstem_nodot, splitOnChar_of_not_mem hsql_nodot]
    show (if "sql".toList = "sql".toList then
      atoiChars ((num ++ '_' :: lbl).takeWhile (fun c => decide (¬ c = '_'))) else none) =
      some ((digitsVal num : Int))
    rw [if_pos rfl]
    rw [takeWhile_append_stop hnum_digit_ne (by decide)]
    exact atoiChars_digits hne hdig
  · unfold parseFileName
    rw [splitOnChar_append hnum_nodot, splitOnChar_of_not_mem hsql_nodot]
    show (if "sql".toList = "sql".toList then
      atoiChars (num.takeWhile (fun c => decide (¬ c = '_'))) else none) =
      some ((digitsVal num : Int))
    rw [if_pos rfl]
    rw [takeWhile_all hnum_digit_ne]
    exact atoiChars_digits hne hdig

/-- C9 counterexample to the original claim: `1_foo.txt` follows the
claimed convention `<integer>[_<label>].<ext>`, yet the adapter rejects
it — parsing yields nothing and listing fails. -/
theorem C9_counterexample :
    parseFileName ("1_foo.txt".toList) = none
    ∧ listMigrations [⟨"1_foo.txt".toList, false⟩] =
        Except.error "invalid file name" := by
  refine ⟨by decide, by decide⟩

/-- C9 witness: `1_f.sql` parses to version 1. -/
theorem C9_witness :
    parseFileName (((['1'] : List Char) ++ '_' :: ['f']) ++ '.' :: "sql".toList) =
      some ((digitsVal ['1'] : Int)) :=
  (C9_filename_convention ['1'] ['f'] (by decide) (by decide) (by decide)).1

/-! ## Claim C10 -/

/-- C10 (confirmed): under the data-model invariant that catalog versions
are pairwise distinct, planning is insensitive to the order in which the
provider lists migrations and the store lists applied versions. -/
theorem C10_plan_order_insensitive
    (provList provList' : List Migration) (dbList dbList' : List Int) (target : Int)
    (hp : provList'.Perm provList) (hd : dbList'.Perm dbList)
    (hnd : (provList.map Migration.version).Nodup) :
    plan provList' dbList' target = plan provList dbList target := by
  have hsortInts : sortInts dbList' = sortInts dbList :=
    @List.eq_of_perm_of_sorted Int (fun a b => a ≤ b) inferInstance _ _
      ((sortInts_perm dbList').trans (hd.trans (sortInts_perm dbList).symm))
      (sortInts_pairwise dbList') (sortInts_pairwise dbList)
  have hnd' : (provList'.map Migration.version).Nodup :=
    hnd.perm (hp.map Migration.version).symm
  have hanti : IsAntisymm Migration (fun a b => a.version < b.version) :=
    ⟨fun a b h1 h2 => absurd (lt_trans h1 h2) (lt_irrefl a.version)⟩
  have hsortMig : sortMigrations provList' = sortMigrations provList :=
    @List.eq_of_perm_of_sorted Migration (fun a b => a.version < b.version) hanti _ _
      ((sortMigrations_perm provList').trans (hp.trans (sortMigrations_perm provList).symm))
      (sortMigrations_pairwise_lt hnd') (sortMigrations_pairwise_lt hnd)
  have hlat : planLatest dbList' = planLatest dbList := by
    unfold planLatest
    rw [hsortInts]
  unfold plan
  rw [hlat, hsortInts, hsortMig]
  by_cases h0 : provList = []
  · have h0' : provList' = [] := by
      rw [h0] at hp
      exact hp.eq_nil
    rw [if_pos h0', if_pos h0]
  · have h0' : provList' ≠ [] := by
      intro hc
      rw [hc] at hp
      exact h0 hp.nil_eq.symm
    rw [if_neg h0', if_neg h0]

/-- C10 witness: listing catalog {1, 2} in the opposite order leaves the
plan unchanged. -/
theorem C10_witness :
    plan [mig 2 "up2" "down2" "", mig 1 "up1" "down1" ""] [1] 2 =
      plan basicCat [1] 2 :=
  C10_plan_order_insensitive basicCat [mig 2 "up2" "down2" "", mig 1 "up1" "down1" ""]
    [1] [1] 2 (by decide) (by decide) (by decide)

end GoMigrate
